import Mathlib

/-!
# ParMmg: coordinate cells, quality reduction and parameter setting

A shallow embedding of parts of `coorcell_pmmg.c`, `quality_pmmg.c` and
`API_functions_pmmg.c`.

Conventions of the embedding.

* C `double` values are elements of an arbitrary linearly ordered field `K`
  (exact arithmetic); at `K = ℚ` every definition below can be evaluated.
* The constants `_MMG5_EPSD` (from the Mmg headers) and `DBL_MAX` (from
  `<float.h>`) are not defined in the translated files: they are the parameters
  `eps` and `dblMax` of the functions that use them.
* A C array passed together with its number of items is a `List`.
-/

namespace ParMmg

/-! ## coorcell_pmmg.c -/

/-- The structure `PMMG_coorCell`: the coordinates `coor[3]` of a point and its index. -/
structure PMMG_coorCell (K : Type) where
  coor : Fin 3 → K
  idx : Int

/-- The loop of `PMMG_compare_coorCell` over the axes still to visit: the value of the
`return` reached inside the loop, or `none` when the loop runs to its end. -/
def PMMG_compare_coorCell_loop {K : Type} [LinearOrderedField K] (eps : K)
    (cell1 cell2 : PMMG_coorCell K) : List (Fin 3) → Option Int
  | [] => none
  | k :: ks =>
    if cell1.coor k - cell2.coor k > eps then some 1
    else if cell1.coor k - cell2.coor k < -eps then some (-1)
    else PMMG_compare_coorCell_loop eps cell1 cell2 ks

/-- The condition of the `assert` that precedes `return 0` in `PMMG_compare_coorCell`. -/
def PMMG_compare_coorCell_assert {K : Type} [LinearOrderedField K] (eps : K)
    (cell1 cell2 : PMMG_coorCell K) : Bool :=
  decide ((cell1.coor 0 - cell2.coor 0) * (cell1.coor 0 - cell2.coor 0)
    + (cell1.coor 1 - cell2.coor 1) * (cell1.coor 1 - cell2.coor 1)
    + (cell1.coor 2 - cell2.coor 2) * (cell1.coor 2 - cell2.coor 2) < eps)

/-- The function `PMMG_compare_coorCell`: `some r` when the function returns `r`, `none` when
the assertion fails (the program aborts). -/
def PMMG_compare_coorCell {K : Type} [LinearOrderedField K] (eps : K)
    (a b : PMMG_coorCell K) : Option Int :=
  match PMMG_compare_coorCell_loop eps a b [0, 1, 2] with
  | some r => some r
  | none => if PMMG_compare_coorCell_assert eps a b then some 0 else none

/-- What `PMMG_scale_coorCellList` leaves behind: the returned value, the list and the three
output arguments `min`, `max` and `*delta`. -/
structure PMMG_scaleResult (K : Type) where
  ret : Int
  list : List (PMMG_coorCell K)
  min : Fin 3 → K
  max : Fin 3 → K
  delta : K

/-- One pass of the outer bounding-box loop: the inner loop over `j` updates `max[j]` and
`min[j]` with the coordinates of one cell. The state is the pair `(min, max)`. -/
def PMMG_bbox_step {K : Type} [LinearOrderedField K]
    (mm : (Fin 3 → K) × (Fin 3 → K)) (c : PMMG_coorCell K) : (Fin 3 → K) × (Fin 3 → K) :=
  (fun j => if c.coor j < mm.1 j then c.coor j else mm.1 j,
   fun j => if c.coor j > mm.2 j then c.coor j else mm.2 j)

/-- The bounding box computation of `PMMG_scale_coorCellList`: `min` starts at `DBL_MAX`,
`max` at `-DBL_MAX`, then every cell is visited. -/
def PMMG_bbox {K : Type} [LinearOrderedField K] (dblMax : K)
    (list : List (PMMG_coorCell K)) : (Fin 3 → K) × (Fin 3 → K) :=
  list.foldl PMMG_bbox_step (fun _ => dblMax, fun _ => -dblMax)

/-- One pass of the loop computing `*delta`. -/
def PMMG_delta_step {K : Type} [LinearOrderedField K]
    (mn mx : Fin 3 → K) (delta : K) (i : Fin 3) : K :=
  if mx i - mn i > delta then mx i - mn i else delta

/-- The value of `*delta`: it starts at `0.0` and the three axes are visited in order. -/
def PMMG_delta {K : Type} [LinearOrderedField K] (mn mx : Fin 3 → K) : K :=
  ([0, 1, 2] : List (Fin 3)).foldl (PMMG_delta_step mn mx) 0

/-- The function `PMMG_scale_coorCellList`, the array `list` of `nitem` cells being a `List`. -/
def PMMG_scale_coorCellList {K : Type} [LinearOrderedField K] (eps dblMax : K)
    (list : List (PMMG_coorCell K)) : PMMG_scaleResult K :=
  let mm := PMMG_bbox dblMax list
  let delta := PMMG_delta mm.1 mm.2
  if delta < eps then
    { ret := 0, list := list, min := mm.1, max := mm.2, delta := delta }
  else
    let dd := 1 / delta
    { ret := 1
      list := list.map fun c => { c with coor := fun j => dd * (c.coor j - mm.1 j) }
      min := mm.1, max := mm.2, delta := delta }

/-- The function `PMMG_unscale_coorCellList`: the returned value and the list. The argument
`max` is not used by the function. -/
def PMMG_unscale_coorCellList {K : Type} [LinearOrderedField K]
    (list : List (PMMG_coorCell K)) (min _max : Fin 3 → K) (delta : K) :
    Int × List (PMMG_coorCell K) :=
  (1, list.map fun c => { c with coor := fun j => delta * c.coor j + min j })

/-! ## quality_pmmg.c -/

/-- The structure `min_iel_t`: a quality value, the element that has it and its group. -/
structure min_iel_t (K : Type) where
  min : K
  iel : K
  iel_grp : K

/-- The loop of `PMMG_min_iel_compute`: `c` is the local variable of that name, the two lists
are what the pointers `in` and `out` still have ahead of them, the number is what remains of
`*len`. Each pass writes `c` over one element of `out`, whose former value is not read.
Indices beyond a buffer are not modelled: the loop stops there. -/
def PMMG_min_iel_loop {K : Type} [LinearOrderedField K] :
    min_iel_t K → List (min_iel_t K) → List (min_iel_t K) → Nat → List (min_iel_t K)
  | c, i :: ins, _ :: outs, n + 1 =>
    (if c.min > i.min then i else c) ::
      PMMG_min_iel_loop (if c.min > i.min then i else c) ins outs n
  | _, _, outs, _ => outs

/-- The function `PMMG_min_iel_compute`: the contents of the buffer `out1` after the call
with input buffer `in1` and `*len = len`. -/
def PMMG_min_iel_compute {K : Type} [LinearOrderedField K] (dblMax : K)
    (in1 out1 : List (min_iel_t K)) (len : Nat) : List (min_iel_t K) :=
  PMMG_min_iel_loop { min := dblMax, iel := 0, iel_grp := 0 } in1 out1 len

/-- The reduction of one triple per process by `PMMG_min_iel_compute` with `len = 1`, folded
from left to right in rank order: the accumulated triple is the in/out buffer and the triple
of the next rank is the input buffer. No process gives no result. -/
def PMMG_min_iel_reduce {K : Type} [LinearOrderedField K] (dblMax : K) :
    List (min_iel_t K) → Option (min_iel_t K)
  | [] => none
  | t :: ts =>
    some (ts.foldl (fun acc x => (PMMG_min_iel_compute dblMax [x] [acc] 1).headD acc) t)

/-! ## API_functions_pmmg.c -/

/-- The values of the argument `iparam` of `PMMG_Set_iparameter`: the `PMMG_IPARAM_*` labels
of the `switch` (`octree` is compiled when `PATTERN` is not defined), and `other` for a value
that matches no label. -/
inductive PMMG_IPARAM where
  | verbose | mem | octree | debug | angle | iso | lag | optim | optimLES
  | noinsert | noswap | nomove | nosurf | numberOfLocalParam | anisosize | other
  deriving DecidableEq, Repr

/-- The `MMG3D_IPARAM_*` options handed to the kernel setter. -/
inductive MMG3D_IPARAM where
  | verbose | mem | octree | debug | angle | iso | lag | optim | optimLES
  | noinsert | noswap | nomove | nosurf | numberOfLocalParam | anisosize
  deriving DecidableEq, Repr

/-- The type of the kernel setter `MMG3D_Set_iparameter` of the Mmg library, a parameter of
the embedding: from the mesh, the metric (`none` for `NULL`), the option and the value, it
gives the returned integer and the mesh and metric it leaves behind. -/
abbrev MMG3D_Setter (M S : Type) := M → Option S → MMG3D_IPARAM → Int → Int × M × Option S

/-- The fields of a group `PMMG_Grp` used by the functions below: its mesh and its metric. -/
structure PMMG_Grp (M S : Type) where
  mesh : M
  met : S

/-- The fields of `PMMG_ParMesh` used by the functions below. -/
structure PMMG_ParMesh (M S : Type) where
  ngrp : Int
  listgrp : List (PMMG_Grp M S)
  memGloMax : Int
  memMax : Int
  memCur : Int

/-- The loop `for ( k=0; k<parmesh->ngrp; ++k )` of each case of `PMMG_Set_iparameter`, with
`n` passes left from index `k`: the kernel setter is called on the mesh of group `k`, with
its metric when `withMet` holds and with `NULL` otherwise. The result is `none` when
`listgrp[k]` does not exist, `(false, _)` when a `return 0` is reached inside the loop and
`(true, _)` when the loop runs to its end. -/
def PMMG_Set_iparameter_loop {M S : Type} (kernel : MMG3D_Setter M S) (withMet : Bool)
    (ip : MMG3D_IPARAM) (val : Int) :
    Nat → Nat → List (PMMG_Grp M S) → Option (Bool × List (PMMG_Grp M S))
  | 0, _, l => some (true, l)
  | n + 1, k, l =>
    match l[k]? with
    | none => none
    | some g =>
      let r := kernel g.mesh (if withMet then some g.met else none) ip val
      let g1 : PMMG_Grp M S :=
        { g with mesh := r.2.1, met := if withMet then r.2.2.getD g.met else g.met }
      if r.1 = 0 then some (false, l.set k g1)
      else PMMG_Set_iparameter_loop kernel withMet ip val n (k + 1) (l.set k g1)

/-- A case of `PMMG_Set_iparameter` made of the loop followed by `break`: the function
returns `1` after the loop, `0` from inside it. -/
def PMMG_Set_iparameter_case {M S : Type} (kernel : MMG3D_Setter M S)
    (parmesh : PMMG_ParMesh M S) (ip : MMG3D_IPARAM) (val : Int) :
    Option (Int × PMMG_ParMesh M S) :=
  (PMMG_Set_iparameter_loop kernel false ip val parmesh.ngrp.toNat 0 parmesh.listgrp).map
    fun r => (if r.1 then 1 else 0, { parmesh with listgrp := r.2 })

/-- The function `PMMG_Set_iparameter`: the returned value and the parmesh it leaves behind,
or `none` when the behaviour is undefined (a group beyond `listgrp`, a division by zero).
C `int` values are unbounded integers and `/` is the truncating division. The case
`PMMG_IPARAM_anisosize` has no `break`: after its loop the `default` label is reached. -/
def PMMG_Set_iparameter {M S : Type} (kernel : MMG3D_Setter M S)
    (parmesh : PMMG_ParMesh M S) (iparam : PMMG_IPARAM) (val : Int) :
    Option (Int × PMMG_ParMesh M S) :=
  match iparam with
  | .verbose => PMMG_Set_iparameter_case kernel parmesh .verbose val
  | .mem =>
    let parmesh1 := if val ≤ 0 then parmesh else { parmesh with memMax := val }
    if parmesh1.ngrp = 0 then none
    else PMMG_Set_iparameter_case kernel parmesh1 .mem (Int.tdiv val parmesh1.ngrp)
  | .octree => PMMG_Set_iparameter_case kernel parmesh .octree val
  | .debug => PMMG_Set_iparameter_case kernel parmesh .debug val
  | .angle => PMMG_Set_iparameter_case kernel parmesh .angle val
  | .iso => PMMG_Set_iparameter_case kernel parmesh .iso val
  | .lag => PMMG_Set_iparameter_case kernel parmesh .lag val
  | .optim => PMMG_Set_iparameter_case kernel parmesh .optim val
  | .optimLES => PMMG_Set_iparameter_case kernel parmesh .optimLES val
  | .noinsert => PMMG_Set_iparameter_case kernel parmesh .noinsert val
  | .noswap => PMMG_Set_iparameter_case kernel parmesh .noswap val
  | .nomove => PMMG_Set_iparameter_case kernel parmesh .nomove val
  | .nosurf => PMMG_Set_iparameter_case kernel parmesh .nosurf val
  | .numberOfLocalParam => PMMG_Set_iparameter_case kernel parmesh .numberOfLocalParam val
  | .anisosize =>
    (PMMG_Set_iparameter_loop kernel true .anisosize val parmesh.ngrp.toNat 0
      parmesh.listgrp).map fun r => (0, { parmesh with listgrp := r.2 })
  | .other => some (0, parmesh)

/-- The default value `4 * 1024L * 1024L` given to `memMax` by `PMMG_Init_parMesh`. -/
def PMMG_memMax_default : Int := 4 * 1024 * 1024

/-! ## API_functions_pmmg.c: release of the communicators -/

/-- The fields of an internal communicator `PMMG_int_comm` used by the functions below. An
array that is `NULL` is `none`. -/
structure PMMG_int_comm (K : Type) where
  nitem : Int
  intvalues : Option (List Int)
  doublevalues : Option (List K)

/-- The fields of an external communicator `PMMG_ext_comm` used by the functions below. An
array that is `NULL` is `none`. -/
structure PMMG_ext_comm (K : Type) where
  nitem : Int
  int_comm_index : Option (List Int)
  itosend : Option (List Int)
  itorecv : Option (List Int)
  rtosend : Option (List K)
  rtorecv : Option (List K)

/-- Modelled from the spec: the macro `PMMG_DEL_MEM(parmesh,ptr,size,type,msg)` of
`parmmg.h`, a file that is not among the translated ones. The `size` items of `sizeofType`
bytes behind `ptr` are released: the ledger `memCur` of the parmesh is discharged of them
and `ptr` becomes `NULL`. The result is the new `memCur` and the new `ptr`. -/
def PMMG_DEL_MEM {α : Type} (memCur : Int) (_ptr : Option α) (size sizeofType : Int) :
    Int × Option α :=
  (memCur - size * sizeofType, none)

/-- The block that `PMMG_parmesh_int_comm_free` and `PMMG_parmesh_ext_comm_free` repeat for
each array of a communicator:
`if ( NULL != ptr ) { assert ( comm->nitem != 0 ); PMMG_DEL_MEM(parmesh,ptr,comm->nitem,type,msg); }`.
The result is `none` when the assertion fails, and otherwise `memCur` and `ptr` after the
block. -/
def PMMG_comm_free_array {α : Type} (memCur nitem sizeofType : Int) (ptr : Option α) :
    Option (Int × Option α) :=
  if ptr.isSome then
    if nitem = 0 then none else some (PMMG_DEL_MEM memCur ptr nitem sizeofType)
  else some (memCur, ptr)

/-- The function `PMMG_parmesh_int_comm_free`, on the ledger `memCur` of the parmesh and the
communicator behind `comm` (`none` for `NULL`): `none` when an assertion fails, and
otherwise the ledger and the communicator after the call. -/
def PMMG_parmesh_int_comm_free {K : Type} (sizeofInt sizeofDouble memCur : Int)
    (comm : Option (PMMG_int_comm K)) : Option (Int × Option (PMMG_int_comm K)) :=
  match comm with
  | none => some (memCur, none)
  | some c =>
    (PMMG_comm_free_array memCur c.nitem sizeofInt c.intvalues).bind fun r1 =>
    (PMMG_comm_free_array r1.1 c.nitem sizeofDouble c.doublevalues).bind fun r2 =>
    some (r2.1, some { c with intvalues := r1.2, doublevalues := r2.2 })

/-- One pass of the loop of `PMMG_parmesh_ext_comm_free`, on the communicator `*comm` that
the body designates by `comm->`. The arrays `rtosend` and `rtorecv` are released with the
type `int`, as in the source. -/
def PMMG_parmesh_ext_comm_free_body {K : Type} (sizeofInt memCur : Int)
    (c : PMMG_ext_comm K) : Option (Int × PMMG_ext_comm K) :=
  (PMMG_comm_free_array memCur c.nitem sizeofInt c.int_comm_index).bind fun r1 =>
  (PMMG_comm_free_array r1.1 c.nitem sizeofInt c.itosend).bind fun r2 =>
  (PMMG_comm_free_array r2.1 c.nitem sizeofInt c.itorecv).bind fun r3 =>
  (PMMG_comm_free_array r3.1 c.nitem sizeofInt c.rtosend).bind fun r4 =>
  (PMMG_comm_free_array r4.1 c.nitem sizeofInt c.rtorecv).bind fun r5 =>
  some (r5.1, { c with int_comm_index := r1.2, itosend := r2.2, itorecv := r3.2,
                       rtosend := r4.2, rtorecv := r5.2 })

/-- The loop `for( i = 0; i < ncomm; ++i )` of `PMMG_parmesh_ext_comm_free` with `n` passes
left. Every pass works on `comm->`, the first communicator of the array: the index `i` does
not appear in the body. An array without a first communicator gives `none`. -/
def PMMG_parmesh_ext_comm_free_loop {K : Type} (sizeofInt : Int) :
    Nat → Int → List (PMMG_ext_comm K) → Option (Int × List (PMMG_ext_comm K))
  | 0, memCur, l => some (memCur, l)
  | n + 1, memCur, l =>
    match l with
    | [] => none
    | c :: cs =>
      (PMMG_parmesh_ext_comm_free_body sizeofInt memCur c).bind fun r =>
      PMMG_parmesh_ext_comm_free_loop sizeofInt n r.1 (r.2 :: cs)

/-- The function `PMMG_parmesh_ext_comm_free`, on the ledger `memCur` of the parmesh and the
array of communicators behind `comm` (`none` for `NULL`): `none` when an assertion fails,
and otherwise the ledger and the array after the call. -/
def PMMG_parmesh_ext_comm_free {K : Type} (sizeofInt memCur : Int)
    (comm : Option (List (PMMG_ext_comm K))) (ncomm : Int) :
    Option (Int × Option (List (PMMG_ext_comm K))) :=
  match comm with
  | none => some (memCur, none)
  | some l =>
    (PMMG_parmesh_ext_comm_free_loop sizeofInt ncomm.toNat memCur l).map
      fun r => (r.1, some r.2)

/-- The internal communicator `c` with its two arrays unset and `nitem` as it is. -/
def PMMG_int_comm_unset {K : Type} (c : PMMG_int_comm K) : PMMG_int_comm K :=
  { nitem := c.nitem, intvalues := none, doublevalues := none }

/-- The external communicator `e` with its five arrays unset and `nitem` as it is. -/
def PMMG_ext_comm_unset {K : Type} (e : PMMG_ext_comm K) : PMMG_ext_comm K :=
  { nitem := e.nitem, int_comm_index := none, itosend := none, itorecv := none,
    rtosend := none, rtorecv := none }

/-- The value of the local variable `c` of `PMMG_min_iel_compute` after the passes of the
loop over the inputs `l`, from the value `c` before them. -/
def PMMG_min_iel_run {K : Type} [LinearOrderedField K] (c : min_iel_t K)
    (l : List (min_iel_t K)) : min_iel_t K :=
  l.foldl (fun c x => if c.min > x.min then x else c) c

/-! ## quality_pmmg.c: the quality histogram -/

/-- The values that the kernel function `MMG3D_computeOutqua` outputs for one group. -/
structure MMG3D_outqua (K : Type) where
  ne : Int
  max : K
  avg : K
  min : K
  iel : Int
  good : Int
  med : Int
  his : Fin 5 → Int
  nrid : Int

/-- The local variables that `PMMG_outqua` accumulates over the groups of a process. -/
structure PMMG_outqua_local (K : Type) where
  iel_grp : Int
  ne : Int
  max : K
  avg : K
  min : K
  iel : Int
  good : Int
  med : Int
  his : Fin 5 → Int
  nrid : Int

/-- The loop of `PMMG_outqua` over the groups, from group `i` on: the list holds what
`MMG3D_computeOutqua` outputs for the groups still to visit. C `int` values are unbounded
integers. -/
def PMMG_outqua_loop {K : Type} [LinearOrderedField K] :
    Nat → List (MMG3D_outqua K) → PMMG_outqua_local K → PMMG_outqua_local K
  | _, [], v => v
  | i, cur :: rest, v =>
    PMMG_outqua_loop (i + 1) rest
      { ne := v.ne + cur.ne
        avg := v.avg + cur.avg
        med := v.med + cur.med
        good := v.good + cur.good
        max := if cur.max > v.max then cur.max else v.max
        min := if cur.min < v.min then cur.min else v.min
        iel := if cur.min < v.min then cur.iel else v.iel
        iel_grp := if cur.min < v.min then i else v.iel_grp
        his := fun j => v.his j + cur.his j
        nrid := v.nrid + cur.nrid }

/-- The quality values of the local process in `PMMG_outqua`: the initialisations, with
`dblMin` for `DBL_MIN` and `dblMax` for `DBL_MAX`, followed by the loop over the groups. -/
def PMMG_outqua_process {K : Type} [LinearOrderedField K] (dblMin dblMax : K)
    (grps : List (MMG3D_outqua K)) : PMMG_outqua_local K :=
  PMMG_outqua_loop 0 grps
    { iel_grp := 0, ne := 0, max := dblMin, avg := 0, min := dblMax, iel := 0, good := 0,
      med := 0, his := fun _ => 0, nrid := 0 }

/-- The values that the reductions of `PMMG_outqua` leave on the root process. -/
structure PMMG_outqua_result (K : Type) where
  ne_result : Int
  avg_result : K
  med_result : Int
  good_result : Int
  max_result : Option K
  min_iel_result : Option (min_iel_t K)
  his_result : Fin 5 → Int
  nrid_result : Int

/-- The reductions of `PMMG_outqua` over the processes of the communicator, given in rank
order by what `MMG3D_computeOutqua` outputs for their groups. `MPI_Reduce` with `MPI_SUM`
is the sum of the contributions, element by element for the histogram; with `MPI_MAX` it
is their maximum; with the operator `PMMG_min_iel_compute` it is `PMMG_min_iel_reduce`.
The maximum and the minimum are `none` when there is no process. -/
def PMMG_outqua_reduce {K : Type} [LinearOrderedField K] (dblMin dblMax : K)
    (procs : List (List (MMG3D_outqua K))) : PMMG_outqua_result K :=
  { ne_result := (procs.map fun grps => (PMMG_outqua_process dblMin dblMax grps).ne).sum
    avg_result := (procs.map fun grps => (PMMG_outqua_process dblMin dblMax grps).avg).sum
    med_result := (procs.map fun grps => (PMMG_outqua_process dblMin dblMax grps).med).sum
    good_result := (procs.map fun grps => (PMMG_outqua_process dblMin dblMax grps).good).sum
    max_result :=
      match procs.map fun grps => (PMMG_outqua_process dblMin dblMax grps).max with
      | [] => none
      | x :: xs => some (xs.foldl (fun a b => if b > a then b else a) x)
    min_iel_result :=
      PMMG_min_iel_reduce dblMax (procs.map fun grps =>
        { min := (PMMG_outqua_process dblMin dblMax grps).min
          iel := ((PMMG_outqua_process dblMin dblMax grps).iel : K)
          iel_grp := ((PMMG_outqua_process dblMin dblMax grps).iel_grp : K) })
    his_result := fun j =>
      (procs.map fun grps => (PMMG_outqua_process dblMin dblMax grps).his j).sum
    nrid_result := (procs.map fun grps => (PMMG_outqua_process dblMin dblMax grps).nrid).sum }

/-! ## variadic_pmmg.c -/

/-- The items of the variadic list read by `PMMG_Init_parMesh_var`, each keyword with the
value that follows it: `ppParMesh` is `PMMG_ARG_ppParMesh` followed by the address of the
parmesh pointer (the embedding has one such pointer), `dim` is `PMMG_ARG_dim` followed by
the dimension, `MPIComm` is `PMMG_ARG_MPIComm` followed by the communicator, and
`unexpected` is any keyword without a `case` label. The list ends where `PMMG_ARG_end` is
read. -/
inductive PMMG_ARG where
  | ppParMesh
  | pMesh
  | pMet
  | dim (d : Int)
  | MPIComm (comm : Nat)
  | unexpected
  deriving DecidableEq, Repr

/-- The local variables of `PMMG_Init_parMesh_var` that the loop over the list updates. -/
structure PMMG_Init_locals where
  parmeshCount : Int
  meshCount : Int
  metCount : Int
  dimCount : Int
  commCount : Int
  dim : Int
  comm : Nat

/-- The `while` loop of `PMMG_Init_parMesh_var` over the variadic list: `none` when the
`default` label is reached (the function returns `0`), and otherwise the local variables at
the end of the list. -/
def PMMG_Init_parMesh_var_loop : List PMMG_ARG → PMMG_Init_locals → Option PMMG_Init_locals
  | [], v => some v
  | .ppParMesh :: rest, v =>
    PMMG_Init_parMesh_var_loop rest { v with parmeshCount := v.parmeshCount + 1 }
  | .pMesh :: rest, v =>
    PMMG_Init_parMesh_var_loop rest { v with meshCount := v.meshCount + 1 }
  | .pMet :: rest, v =>
    PMMG_Init_parMesh_var_loop rest { v with metCount := v.metCount + 1 }
  | .dim d :: rest, v =>
    PMMG_Init_parMesh_var_loop rest { v with dimCount := v.dimCount + 1, dim := d }
  | .MPIComm c :: rest, v =>
    PMMG_Init_parMesh_var_loop rest { v with commCount := v.commCount + 1, comm := c }
  | .unexpected :: _, _ => none

/-- Modelled from the spec: the macro `PMMG_CALLOC(parmesh,ptr,size,type,msg,on_failure)`
of `parmmg.h`, a file that is not among the translated ones. The allocation of `size` items
of `sizeofType` bytes fails when the ledger would exceed `memMax` or when the underlying
allocation fails (`sysOk` is false); otherwise the ledger is charged. The result is the new
`memCur`, or `none` on failure. -/
def PMMG_CALLOC (memCur memMax size sizeofType : Int) (sysOk : Bool) : Option Int :=
  if memMax < memCur + size * sizeofType ∨ sysOk = false then none
  else some (memCur + size * sizeofType)

/-- The function `PMMG_Init_parMesh_var`, on the variadic list `args` and the parmesh
pointer `parmesh` that the list designates (`none` for `NULL`). The parameters are the
communicator `mpiCommWorld`, the sizes of the two structures, the function
`PMMG_Init_parameters` (absent from the translated files) and the outcomes of the calls
that can fail: `callocOk` for the `calloc` of the parmesh, `grpOk` for the underlying
allocation of the group container and `initMesh` for `MMG3D_Init_mesh`, which gives the
mesh and the metric when it returns `1`. The result is `none` when the assertion fails,
and otherwise the returned value and the parmesh pointer after the call. After the labels
`fail_mesh` and `fail_grplst` the fields of the parmesh are reset and the parmesh is freed
by `_MMG5_SAFE_FREE`: the pointer is `NULL` and the function reaches `return 1`. -/
def PMMG_Init_parMesh_var {M S : Type} (mpiCommWorld : Nat) (sizeofParMesh sizeofGrp : Int)
    (PMMG_Init_parameters :
      PMMG_ParMesh (Option M) (Option S) → Nat → PMMG_ParMesh (Option M) (Option S))
    (callocOk grpOk : Bool) (initMesh : Option (M × S))
    (args : List PMMG_ARG) (parmesh : Option (PMMG_ParMesh (Option M) (Option S))) :
    Option (Int × Option (PMMG_ParMesh (Option M) (Option S))) :=
  match PMMG_Init_parMesh_var_loop args
      { parmeshCount := 0, meshCount := 0, metCount := 0, dimCount := 0, commCount := 0,
        dim := 3, comm := mpiCommWorld } with
  | none => some (0, parmesh)
  | some v =>
    if v.parmeshCount ≠ 1 then some (0, parmesh)
    else if ¬ v.dimCount > 1 ∧ v.dimCount = 0 then some (0, parmesh)
    else if v.dim ≠ 3 then some (0, parmesh)
    else if parmesh.isSome then none
    else if callocOk = false then some (0, none)
    else
      let pm0 : PMMG_ParMesh (Option M) (Option S) :=
        { ngrp := 1, listgrp := [], memGloMax := 4 * 1024 * 1024, memMax := 4 * 1024 * 1024,
          memCur := sizeofParMesh }
      match PMMG_CALLOC pm0.memCur pm0.memMax 1 sizeofGrp grpOk with
      | none => some (1, none)
      | some memCur1 =>
        match initMesh with
        | none => some (1, none)
        | some (mesh, met) =>
          some (1, some (PMMG_Init_parameters
            { pm0 with memCur := memCur1, listgrp := [{ mesh := some mesh, met := some met }] }
            v.comm))

/-! ## Concrete inputs -/

/-- A list of two cells with rational coordinates. -/
def exampleCells : List (PMMG_coorCell ℚ) :=
  [{ coor := ![0, 0, 0], idx := 0 }, { coor := ![2, 1, 4], idx := 1 }]

/-- Three cells on which `PMMG_compare_coorCell` with `eps = 1e-30` is not transitive. -/
def cellA : PMMG_coorCell ℚ := { coor := ![12 / 10 ^ 31, 0, 0], idx := 0 }

/-- The second of the three cells. -/
def cellB : PMMG_coorCell ℚ := { coor := ![6 / 10 ^ 31, 2, 0], idx := 1 }

/-- The third of the three cells. -/
def cellC : PMMG_coorCell ℚ := { coor := ![0, 4, 0], idx := 2 }

/-- Three cells whose coordinates are pairwise equal or one unit apart. -/
def cellP : PMMG_coorCell ℚ := { coor := ![0, 0, 0], idx := 0 }

/-- The second of the three cells. -/
def cellQ : PMMG_coorCell ℚ := { coor := ![0, 1, 0], idx := 1 }

/-- The third of the three cells. -/
def cellR : PMMG_coorCell ℚ := { coor := ![1, 0, 0], idx := 2 }

/-- The triple reported by rank 0: quality `3.2`, element `10` of group `0`. -/
def tripleRank0 : min_iel_t ℚ := { min := 32 / 10, iel := 10, iel_grp := 0 }

/-- The triple reported by rank 1: quality `1.5`, element `11` of group `1`. -/
def tripleRank1 : min_iel_t ℚ := { min := 15 / 10, iel := 11, iel_grp := 1 }

/-- The triple reported by rank 2: quality `1.5`, element `12` of group `0`. -/
def tripleRank2 : min_iel_t ℚ := { min := 15 / 10, iel := 12, iel_grp := 0 }

/-- A kernel setter that always succeeds, on meshes that are the list of the options and
values they have received. -/
def recordingSetter : MMG3D_Setter (List (MMG3D_IPARAM × Int)) Unit :=
  fun mesh met ip val => (1, mesh ++ [(ip, val)], met)

/-- A parmesh with one group and the default memory values. -/
def parmeshOneGrp : PMMG_ParMesh (List (MMG3D_IPARAM × Int)) Unit :=
  { ngrp := 1, listgrp := [{ mesh := [], met := () }],
    memGloMax := PMMG_memMax_default, memMax := PMMG_memMax_default, memCur := 0 }

/-- A parmesh with two groups and the default memory values. -/
def parmeshTwoGrp : PMMG_ParMesh (List (MMG3D_IPARAM × Int)) Unit :=
  { ngrp := 2, listgrp := [{ mesh := [], met := () }, { mesh := [], met := () }],
    memGloMax := PMMG_memMax_default, memMax := PMMG_memMax_default, memCur := 0 }

/-- An internal communicator of three items whose integer array is allocated. -/
def intCommAllocated : PMMG_int_comm ℚ :=
  { nitem := 3, intvalues := some [1, 2, 3], doublevalues := none }

/-- An external communicator of two items with its index and integer buffers allocated. -/
def extCommFirst : PMMG_ext_comm ℚ :=
  { nitem := 2, int_comm_index := some [0, 1], itosend := some [5, 6], itorecv := some [0, 0],
    rtosend := none, rtorecv := none }

/-- An external communicator of one item with all its arrays allocated. -/
def extCommSecond : PMMG_ext_comm ℚ :=
  { nitem := 1, int_comm_index := some [2], itosend := some [7], itorecv := some [0],
    rtosend := some [1 / 2], rtorecv := some [0] }

/-- A cell within `1e-30` of `cellA` on every axis. -/
def cellNearA : PMMG_coorCell ℚ := { coor := ![6 / 10 ^ 31, 0, 0], idx := 3 }

/-- An input buffer of four triples for `PMMG_min_iel_compute`. -/
def inBuffer : List (min_iel_t ℚ) :=
  [tripleRank0, tripleRank1, tripleRank2, { min := 1, iel := 13, iel_grp := 2 }]

/-- The output of `MMG3D_computeOutqua` for a group of four elements with the histogram
`[2,1,0,0,1]`. -/
def quaFirst : MMG3D_outqua ℚ :=
  { ne := 4, max := 9 / 10, avg := 2, min := 1 / 10, iel := 3, good := 1, med := 2,
    his := ![2, 1, 0, 0, 1], nrid := 0 }

/-- The output of `MMG3D_computeOutqua` for a group of two elements with the histogram
`[0,1,1,0,0]`. -/
def quaSecond : MMG3D_outqua ℚ :=
  { ne := 2, max := 1 / 2, avg := 1, min := 3 / 10, iel := 1, good := 0, med := 1,
    his := ![0, 1, 1, 0, 0], nrid := 0 }

/-! ## Auxiliary facts on the bounding box -/

theorem PMMG_delta_nonneg {K : Type} [LinearOrderedField K] (mn mx : Fin 3 → K) :
    0 ≤ PMMG_delta mn mx := by
  simp only [PMMG_delta, List.foldl, PMMG_delta_step]
  split_ifs <;> linarith

theorem PMMG_delta_ge {K : Type} [LinearOrderedField K] (mn mx : Fin 3 → K) (j : Fin 3) :
    mx j - mn j ≤ PMMG_delta mn mx := by
  simp only [PMMG_delta, List.foldl, PMMG_delta_step]
  fin_cases j <;> simp only [Fin.zero_eta, Fin.mk_one, Fin.reduceFinMk] <;>
    split_ifs <;> linarith

theorem PMMG_delta_cases {K : Type} [LinearOrderedField K] (mn mx : Fin 3 → K) :
    PMMG_delta mn mx = 0 ∨ ∃ j, PMMG_delta mn mx = mx j - mn j := by
  simp only [PMMG_delta, List.foldl, PMMG_delta_step]
  split_ifs
  · exact Or.inr ⟨2, rfl⟩
  · exact Or.inr ⟨1, rfl⟩
  · exact Or.inr ⟨2, rfl⟩
  · exact Or.inr ⟨0, rfl⟩
  · exact Or.inr ⟨2, rfl⟩
  · exact Or.inr ⟨1, rfl⟩
  · exact Or.inr ⟨2, rfl⟩
  · exact Or.inl rfl

theorem PMMG_bbox_fold_min_le {K : Type} [LinearOrderedField K]
    (l : List (PMMG_coorCell K)) (mm : (Fin 3 → K) × (Fin 3 → K)) (j : Fin 3) :
    (l.foldl PMMG_bbox_step mm).1 j ≤ mm.1 j ∧
      ∀ c ∈ l, (l.foldl PMMG_bbox_step mm).1 j ≤ c.coor j := by
  induction l generalizing mm with
  | nil => simp
  | cons x xs ih =>
    obtain ⟨h1, h2⟩ := ih (PMMG_bbox_step mm x)
    have hx : (PMMG_bbox_step mm x).1 j ≤ mm.1 j ∧ (PMMG_bbox_step mm x).1 j ≤ x.coor j := by
      simp only [PMMG_bbox_step]
      split_ifs with h
      · exact ⟨le_of_lt h, le_refl _⟩
      · exact ⟨le_refl _, not_lt.mp h⟩
    refine ⟨le_trans h1 hx.1, ?_⟩
    intro c hc
    rcases List.mem_cons.mp hc with rfl | hc
    · exact le_trans h1 hx.2
    · exact h2 c hc

theorem PMMG_bbox_fold_max_ge {K : Type} [LinearOrderedField K]
    (l : List (PMMG_coorCell K)) (mm : (Fin 3 → K) × (Fin 3 → K)) (j : Fin 3) :
    mm.2 j ≤ (l.foldl PMMG_bbox_step mm).2 j ∧
      ∀ c ∈ l, c.coor j ≤ (l.foldl PMMG_bbox_step mm).2 j := by
  induction l generalizing mm with
  | nil => simp
  | cons x xs ih =>
    obtain ⟨h1, h2⟩ := ih (PMMG_bbox_step mm x)
    have hx : mm.2 j ≤ (PMMG_bbox_step mm x).2 j ∧ x.coor j ≤ (PMMG_bbox_step mm x).2 j := by
      simp only [PMMG_bbox_step]
      split_ifs with h
      · exact ⟨le_of_lt h, le_refl _⟩
      · exact ⟨le_refl _, not_lt.mp h⟩
    refine ⟨le_trans hx.1 h1, ?_⟩
    intro c hc
    rcases List.mem_cons.mp hc with rfl | hc
    · exact le_trans hx.2 h1
    · exact h2 c hc

theorem PMMG_bbox_fold_min_mem {K : Type} [LinearOrderedField K]
    (l : List (PMMG_coorCell K)) (mm : (Fin 3 → K) × (Fin 3 → K)) (j : Fin 3) :
    (l.foldl PMMG_bbox_step mm).1 j = mm.1 j ∨
      ∃ c ∈ l, c.coor j = (l.foldl PMMG_bbox_step mm).1 j := by
  induction l generalizing mm with
  | nil => simp
  | cons x xs ih =>
    rcases ih (PMMG_bbox_step mm x) with h | ⟨c, hc, h⟩
    · simp only [List.foldl_cons]
      rw [h]
      simp only [PMMG_bbox_step]
      split_ifs
      · exact Or.inr ⟨x, List.mem_cons_self _ _, rfl⟩
      · exact Or.inl rfl
    · exact Or.inr ⟨c, List.mem_cons_of_mem _ hc, h⟩

theorem PMMG_bbox_fold_max_mem {K : Type} [LinearOrderedField K]
    (l : List (PMMG_coorCell K)) (mm : (Fin 3 → K) × (Fin 3 → K)) (j : Fin 3) :
    (l.foldl PMMG_bbox_step mm).2 j = mm.2 j ∨
      ∃ c ∈ l, c.coor j = (l.foldl PMMG_bbox_step mm).2 j := by
  induction l generalizing mm with
  | nil => simp
  | cons x xs ih =>
    rcases ih (PMMG_bbox_step mm x) with h | ⟨c, hc, h⟩
    · simp only [List.foldl_cons]
      rw [h]
      simp only [PMMG_bbox_step]
      split_ifs
      · exact Or.inr ⟨x, List.mem_cons_self _ _, rfl⟩
      · exact Or.inl rfl
    · exact Or.inr ⟨c, List.mem_cons_of_mem _ hc, h⟩

/-- For a non-empty list of cells with coordinates in the range of the finite `double`
values, `min[j]` is the least `j`-th coordinate of the list. -/
theorem PMMG_bbox_min_spec {K : Type} [LinearOrderedField K] (dblMax : K)
    (l : List (PMMG_coorCell K)) (hne : l ≠ [])
    (hrange : ∀ c ∈ l, ∀ j, -dblMax ≤ c.coor j ∧ c.coor j ≤ dblMax) (j : Fin 3) :
    (∀ c ∈ l, (PMMG_bbox dblMax l).1 j ≤ c.coor j) ∧
      ∃ c ∈ l, c.coor j = (PMMG_bbox dblMax l).1 j := by
  have hle := PMMG_bbox_fold_min_le l (fun _ => dblMax, fun _ => -dblMax) j
  refine ⟨hle.2, ?_⟩
  rcases PMMG_bbox_fold_min_mem l (fun _ => dblMax, fun _ => -dblMax) j with h | h
  · obtain ⟨c, hc⟩ := List.exists_mem_of_ne_nil l hne
    refine ⟨c, hc, le_antisymm ?_ (hle.2 c hc)⟩
    have := (hrange c hc j).2
    simp only [PMMG_bbox]
    rw [h]
    exact this
  · exact h

/-- For a non-empty list of cells with coordinates in the range of the finite `double`
values, `max[j]` is the greatest `j`-th coordinate of the list. -/
theorem PMMG_bbox_max_spec {K : Type} [LinearOrderedField K] (dblMax : K)
    (l : List (PMMG_coorCell K)) (hne : l ≠ [])
    (hrange : ∀ c ∈ l, ∀ j, -dblMax ≤ c.coor j ∧ c.coor j ≤ dblMax) (j : Fin 3) :
    (∀ c ∈ l, c.coor j ≤ (PMMG_bbox dblMax l).2 j) ∧
      ∃ c ∈ l, c.coor j = (PMMG_bbox dblMax l).2 j := by
  have hge := PMMG_bbox_fold_max_ge l (fun _ => dblMax, fun _ => -dblMax) j
  refine ⟨hge.2, ?_⟩
  rcases PMMG_bbox_fold_max_mem l (fun _ => dblMax, fun _ => -dblMax) j with h | h
  · obtain ⟨c, hc⟩ := List.exists_mem_of_ne_nil l hne
    refine ⟨c, hc, le_antisymm (hge.2 c hc) ?_⟩
    have := (hrange c hc j).1
    simp only [PMMG_bbox]
    rw [h]
    exact this
  · exact h

/-- The value returned by `PMMG_scale_coorCellList` is `0` or `1`, according to `*delta`. -/
theorem PMMG_scale_ret {K : Type} [LinearOrderedField K] (eps dblMax : K)
    (l : List (PMMG_coorCell K)) :
    (PMMG_scale_coorCellList eps dblMax l).ret =
      if PMMG_delta (PMMG_bbox dblMax l).1 (PMMG_bbox dblMax l).2 < eps then 0 else 1 := by
  simp only [PMMG_scale_coorCellList]
  split_ifs <;> rfl

theorem PMMG_scale_min {K : Type} [LinearOrderedField K] (eps dblMax : K)
    (l : List (PMMG_coorCell K)) :
    (PMMG_scale_coorCellList eps dblMax l).min = (PMMG_bbox dblMax l).1 := by
  simp only [PMMG_scale_coorCellList]
  split_ifs <;> rfl

theorem PMMG_scale_max {K : Type} [LinearOrderedField K] (eps dblMax : K)
    (l : List (PMMG_coorCell K)) :
    (PMMG_scale_coorCellList eps dblMax l).max = (PMMG_bbox dblMax l).2 := by
  simp only [PMMG_scale_coorCellList]
  split_ifs <;> rfl

theorem PMMG_scale_delta {K : Type} [LinearOrderedField K] (eps dblMax : K)
    (l : List (PMMG_coorCell K)) :
    (PMMG_scale_coorCellList eps dblMax l).delta =
      PMMG_delta (PMMG_bbox dblMax l).1 (PMMG_bbox dblMax l).2 := by
  simp only [PMMG_scale_coorCellList]
  split_ifs <;> rfl

/-- When `PMMG_scale_coorCellList` returns `1`, `*delta` is at least `eps` and the list has
been rescaled. -/
theorem PMMG_scale_success {K : Type} [LinearOrderedField K] (eps dblMax : K)
    (l : List (PMMG_coorCell K)) (h : (PMMG_scale_coorCellList eps dblMax l).ret = 1) :
    eps ≤ (PMMG_scale_coorCellList eps dblMax l).delta ∧
    (PMMG_scale_coorCellList eps dblMax l).list =
      l.map fun c => { c with coor := fun j =>
        1 / (PMMG_scale_coorCellList eps dblMax l).delta *
          (c.coor j - (PMMG_scale_coorCellList eps dblMax l).min j) } := by
  simp only [PMMG_scale_coorCellList] at h ⊢
  split_ifs at h ⊢ with hd
  · simp at h
  · exact ⟨not_lt.mp hd, rfl⟩

/-! ## Scaling and unscaling of a list of cells -/

/-- C1: round trip of `PMMG_scale_coorCellList` and `PMMG_unscale_coorCellList` in exact
arithmetic. For a positive `eps`, whenever the scaling of a list returns `1`, unscaling the
scaled list with the `min`, `max` and `delta` that the scaling has output gives back the
original list: every cell recovers its coordinates (and keeps its index). -/
theorem PMMG_unscale_scale_roundtrip {K : Type} [LinearOrderedField K] (eps dblMax : K)
    (l : List (PMMG_coorCell K)) (heps : 0 < eps)
    (hret : (PMMG_scale_coorCellList eps dblMax l).ret = 1) :
    (PMMG_unscale_coorCellList (PMMG_scale_coorCellList eps dblMax l).list
      (PMMG_scale_coorCellList eps dblMax l).min (PMMG_scale_coorCellList eps dblMax l).max
      (PMMG_scale_coorCellList eps dblMax l).delta).2 = l := by
  obtain ⟨hd, hl⟩ := PMMG_scale_success eps dblMax l hret
  have hpos : (PMMG_scale_coorCellList eps dblMax l).delta ≠ 0 :=
    ne_of_gt (lt_of_lt_of_le heps hd)
  rw [hl]
  simp only [PMMG_unscale_coorCellList, List.map_map]
  conv_rhs => rw [← List.map_id l]
  apply List.map_congr_left
  intro c _
  cases c with
  | mk coor idx =>
    simp only [Function.comp_apply, id_eq, PMMG_coorCell.mk.injEq, and_true]
    funext j
    field_simp

theorem PMMG_unscale_scale_roundtrip_witness :
    (PMMG_scale_coorCellList (1 / 10 ^ 30 : ℚ) (10 ^ 308) exampleCells).ret = 1 ∧
    (PMMG_unscale_coorCellList
      (PMMG_scale_coorCellList (1 / 10 ^ 30 : ℚ) (10 ^ 308) exampleCells).list
      (PMMG_scale_coorCellList (1 / 10 ^ 30 : ℚ) (10 ^ 308) exampleCells).min
      (PMMG_scale_coorCellList (1 / 10 ^ 30 : ℚ) (10 ^ 308) exampleCells).max
      (PMMG_scale_coorCellList (1 / 10 ^ 30 : ℚ) (10 ^ 308) exampleCells).delta).2
      = exampleCells :=
  have h : (PMMG_scale_coorCellList (1 / 10 ^ 30 : ℚ) (10 ^ 308) exampleCells).ret = 1 := by
    rw [PMMG_scale_ret]
    norm_num [exampleCells, PMMG_bbox, PMMG_bbox_step, PMMG_delta, PMMG_delta_step]
  ⟨h, PMMG_unscale_scale_roundtrip _ _ _ (by norm_num) h⟩

/-- C6: `PMMG_scale_coorCellList` fails exactly on degenerate input and then does not
rescale. For every list, the empty one included, the function returns `0` if and only if the
`delta` it outputs is smaller than `eps`; when it returns `0` the list is left as it was; and
when it does not return `0` it returns `1`. -/
theorem PMMG_scale_fails_iff_degenerate {K : Type} [LinearOrderedField K] (eps dblMax : K)
    (l : List (PMMG_coorCell K)) :
    ((PMMG_scale_coorCellList eps dblMax l).ret = 0 ↔
      (PMMG_scale_coorCellList eps dblMax l).delta < eps) ∧
    ((PMMG_scale_coorCellList eps dblMax l).ret = 0 →
      (PMMG_scale_coorCellList eps dblMax l).list = l) ∧
    ((PMMG_scale_coorCellList eps dblMax l).ret ≠ 0 →
      (PMMG_scale_coorCellList eps dblMax l).ret = 1) := by
  simp only [PMMG_scale_coorCellList]
  split_ifs with hd
  · simp [hd]
  · simp [hd]

/-- C7: postcondition of a successful `PMMG_scale_coorCellList` in exact arithmetic. For a
positive `eps` and a non-empty list whose coordinates lie in the range of the finite `double`
values, from `-DBL_MAX` to `DBL_MAX`, on which the function returns `1`: `min[j]` and
`max[j]` are the least and the greatest `j`-th coordinate of the input, `delta` is the
largest of the three extents `max[j] - min[j]`, and every output coordinate is
`(input - min[j]) / delta` and lies between `0` and `1`. -/
theorem PMMG_scale_postcondition {K : Type} [LinearOrderedField K] (eps dblMax : K)
    (l : List (PMMG_coorCell K)) (heps : 0 < eps) (hne : l ≠ [])
    (hrange : ∀ c ∈ l, ∀ j, -dblMax ≤ c.coor j ∧ c.coor j ≤ dblMax)
    (hret : (PMMG_scale_coorCellList eps dblMax l).ret = 1) :
    (∀ j, (∀ c ∈ l, (PMMG_scale_coorCellList eps dblMax l).min j ≤ c.coor j) ∧
      ∃ c ∈ l, c.coor j = (PMMG_scale_coorCellList eps dblMax l).min j) ∧
    (∀ j, (∀ c ∈ l, c.coor j ≤ (PMMG_scale_coorCellList eps dblMax l).max j) ∧
      ∃ c ∈ l, c.coor j = (PMMG_scale_coorCellList eps dblMax l).max j) ∧
    (PMMG_scale_coorCellList eps dblMax l).delta =
      max (max ((PMMG_scale_coorCellList eps dblMax l).max 0 -
                (PMMG_scale_coorCellList eps dblMax l).min 0)
               ((PMMG_scale_coorCellList eps dblMax l).max 1 -
                (PMMG_scale_coorCellList eps dblMax l).min 1))
          ((PMMG_scale_coorCellList eps dblMax l).max 2 -
           (PMMG_scale_coorCellList eps dblMax l).min 2) ∧
    (PMMG_scale_coorCellList eps dblMax l).list =
      l.map (fun c => { c with coor := fun j =>
        (c.coor j - (PMMG_scale_coorCellList eps dblMax l).min j) /
          (PMMG_scale_coorCellList eps dblMax l).delta }) ∧
    (∀ c ∈ (PMMG_scale_coorCellList eps dblMax l).list, ∀ j, 0 ≤ c.coor j ∧ c.coor j ≤ 1) := by
  obtain ⟨hd, hl⟩ := PMMG_scale_success eps dblMax l hret
  have hpos : 0 < (PMMG_scale_coorCellList eps dblMax l).delta := lt_of_lt_of_le heps hd
  have hmin := PMMG_bbox_min_spec dblMax l hne hrange
  have hmax := PMMG_bbox_max_spec dblMax l hne hrange
  rw [hl]
  rw [PMMG_scale_delta] at hpos ⊢
  rw [PMMG_scale_min, PMMG_scale_max]
  refine ⟨hmin, hmax, ?_, ?_, ?_⟩
  · apply le_antisymm
    · rcases PMMG_delta_cases (PMMG_bbox dblMax l).1 (PMMG_bbox dblMax l).2 with h | ⟨j, h⟩
      · exact absurd h (ne_of_gt hpos)
      · rw [h]
        fin_cases j
        · exact le_trans (le_max_left _ _) (le_max_left _ _)
        · exact le_trans (le_max_right _ _) (le_max_left _ _)
        · exact le_max_right _ _
    · exact max_le (max_le (PMMG_delta_ge _ _ 0) (PMMG_delta_ge _ _ 1)) (PMMG_delta_ge _ _ 2)
  · apply List.map_congr_left
    intro c _
    simp only [PMMG_coorCell.mk.injEq, and_true]
    funext j
    rw [one_div, div_eq_inv_mul]
  · intro c hc j
    obtain ⟨c0, hc0, rfl⟩ := List.mem_map.mp hc
    simp only
    have h1 := (hmin j).1 c0 hc0
    have h2 := (hmax j).1 c0 hc0
    have h3 := PMMG_delta_ge (PMMG_bbox dblMax l).1 (PMMG_bbox dblMax l).2 j
    constructor
    · exact mul_nonneg (le_of_lt (one_div_pos.mpr hpos)) (by linarith)
    · rw [one_div, inv_mul_le_iff₀ hpos]
      linarith

theorem PMMG_scale_postcondition_witness :
    (0 : ℚ) < 1 / 10 ^ 30 ∧ exampleCells ≠ [] ∧
    (∀ c ∈ exampleCells, ∀ j, -(10 ^ 308 : ℚ) ≤ c.coor j ∧ c.coor j ≤ 10 ^ 308) ∧
    (PMMG_scale_coorCellList (1 / 10 ^ 30 : ℚ) (10 ^ 308) exampleCells).ret = 1 ∧
    (PMMG_scale_coorCellList (1 / 10 ^ 30 : ℚ) (10 ^ 308) exampleCells).delta =
      max (max ((PMMG_scale_coorCellList (1 / 10 ^ 30 : ℚ) (10 ^ 308) exampleCells).max 0 -
                (PMMG_scale_coorCellList (1 / 10 ^ 30 : ℚ) (10 ^ 308) exampleCells).min 0)
               ((PMMG_scale_coorCellList (1 / 10 ^ 30 : ℚ) (10 ^ 308) exampleCells).max 1 -
                (PMMG_scale_coorCellList (1 / 10 ^ 30 : ℚ) (10 ^ 308) exampleCells).min 1))
          ((PMMG_scale_coorCellList (1 / 10 ^ 30 : ℚ) (10 ^ 308) exampleCells).max 2 -
           (PMMG_scale_coorCellList (1 / 10 ^ 30 : ℚ) (10 ^ 308) exampleCells).min 2) ∧
    (∀ c ∈ (PMMG_scale_coorCellList (1 / 10 ^ 30 : ℚ) (10 ^ 308) exampleCells).list,
      ∀ j, 0 ≤ c.coor j ∧ c.coor j ≤ 1) :=
  have h0 : (0 : ℚ) < 1 / 10 ^ 30 := by norm_num
  have h1 : exampleCells ≠ [] := by simp [exampleCells]
  have h2 : ∀ c ∈ exampleCells, ∀ j, -(10 ^ 308 : ℚ) ≤ c.coor j ∧ c.coor j ≤ 10 ^ 308 := by
    intro c hc j
    simp only [exampleCells, List.mem_cons, List.mem_singleton, List.not_mem_nil,
      or_false] at hc
    rcases hc with rfl | rfl <;> fin_cases j <;> norm_num
  have h3 : (PMMG_scale_coorCellList (1 / 10 ^ 30 : ℚ) (10 ^ 308) exampleCells).ret = 1 := by
    rw [PMMG_scale_ret]
    norm_num [exampleCells, PMMG_bbox, PMMG_bbox_step, PMMG_delta, PMMG_delta_step]
  have h := PMMG_scale_postcondition (1 / 10 ^ 30 : ℚ) (10 ^ 308) exampleCells h0 h1 h2 h3
  ⟨h0, h1, h2, h3, h.2.2.1, h.2.2.2.2⟩

/-! ## The comparison of two cells -/

/-- The function `PMMG_compare_coorCell` returns a negative value exactly when the first axis
on which the difference leaves the band from `-eps` to `eps` has a difference below it. -/
theorem PMMG_compare_neg_iff {K : Type} [LinearOrderedField K] (eps : K)
    (a b : PMMG_coorCell K) :
    (∃ r, PMMG_compare_coorCell eps a b = some r ∧ r < 0) ↔
      (¬ a.coor 0 - b.coor 0 > eps ∧ a.coor 0 - b.coor 0 < -eps) ∨
      (¬ a.coor 0 - b.coor 0 > eps ∧ ¬ a.coor 0 - b.coor 0 < -eps ∧
        ¬ a.coor 1 - b.coor 1 > eps ∧ a.coor 1 - b.coor 1 < -eps) ∨
      (¬ a.coor 0 - b.coor 0 > eps ∧ ¬ a.coor 0 - b.coor 0 < -eps ∧
        ¬ a.coor 1 - b.coor 1 > eps ∧ ¬ a.coor 1 - b.coor 1 < -eps ∧
        ¬ a.coor 2 - b.coor 2 > eps ∧ a.coor 2 - b.coor 2 < -eps) := by
  simp only [PMMG_compare_coorCell, PMMG_compare_coorCell_loop]
  split_ifs <;> simp_all

/-- On one axis: when closeness to within `eps` is transitive among three coordinates,
the outcomes of the comparisons of `A` with `B` and of `B` with `C` give the outcome of the
comparison of `A` with `C`. -/
theorem PMMG_axis_trans {K : Type} [LinearOrderedField K] (e A B C : K) (he : 0 < e)
    (H1 : |A - B| ≤ e → |B - C| ≤ e → |A - C| ≤ e)
    (H2 : |A - C| ≤ e → |C - B| ≤ e → |A - B| ≤ e)
    (H3 : |B - A| ≤ e → |A - C| ≤ e → |B - C| ≤ e) :
    (¬ A - B > e → ¬ A - B < -e → ¬ B - C > e → ¬ B - C < -e →
      ¬ A - C > e ∧ ¬ A - C < -e) ∧
    (¬ A - B > e → A - B < -e → ¬ B - C > e → ¬ B - C < -e →
      ¬ A - C > e ∧ A - C < -e) ∧
    (¬ A - B > e → ¬ A - B < -e → ¬ B - C > e → B - C < -e →
      ¬ A - C > e ∧ A - C < -e) ∧
    (¬ A - B > e → A - B < -e → ¬ B - C > e → B - C < -e →
      ¬ A - C > e ∧ A - C < -e) := by
  simp only [abs_le] at H1 H2 H3
  simp only [not_lt, gt_iff_lt]
  refine ⟨?_, ?_, ?_, ?_⟩
  · intro h1 h2 h3 h4
    have := H1 ⟨by linarith, by linarith⟩ ⟨by linarith, by linarith⟩
    exact ⟨by linarith [this.2], by linarith [this.1]⟩
  · intro h1 h2 h3 h4
    refine ⟨by linarith, ?_⟩
    by_contra hc
    have hc1 : -e ≤ A - C := not_lt.mp hc
    have := H2 ⟨hc1, by linarith⟩ ⟨by linarith, by linarith⟩
    linarith [this.1]
  · intro h1 h2 h3 h4
    refine ⟨by linarith, ?_⟩
    by_contra hc
    have hc1 : -e ≤ A - C := not_lt.mp hc
    rcases le_or_lt (A - C) e with h5 | h5
    · have := H3 ⟨by linarith, by linarith⟩ ⟨hc1, h5⟩
      linarith [this.1]
    · linarith
  · intro h1 h2 h3 h4
    exact ⟨by linarith, by linarith⟩

/-- C4: `PMMG_compare_coorCell` is a strict total order modulo `eps`. For a positive `eps`:
when the coordinates of `a` and `b` differ by more than `eps` on some axis, the function
returns a value `r` for which exactly one of `r > 0` and `r < 0` holds; and the comparison
of a cell with itself returns `0`. -/
theorem PMMG_compare_strict_modulo_eps {K : Type} [LinearOrderedField K] (eps : K)
    (heps : 0 < eps) (a b : PMMG_coorCell K) :
    ((∃ k, eps < |a.coor k - b.coor k|) →
      ∃ r, PMMG_compare_coorCell eps a b = some r ∧ Xor' (r > 0) (r < 0)) ∧
    PMMG_compare_coorCell eps a a = some 0 := by
  constructor
  · rintro ⟨k, hk⟩
    have hpos : Xor' ((1 : Int) > 0) ((1 : Int) < 0) := by simp [Xor']
    have hneg : Xor' ((-1 : Int) > 0) ((-1 : Int) < 0) := by simp [Xor']
    simp only [PMMG_compare_coorCell, PMMG_compare_coorCell_loop]
    rcases lt_abs.mp hk with h | h <;> fin_cases k <;>
      simp only [Fin.zero_eta, Fin.mk_one, Fin.reduceFinMk] at h <;>
      split_ifs <;>
      first
        | exact ⟨1, rfl, hpos⟩
        | exact ⟨-1, rfl, hneg⟩
        | (exfalso; linarith)
  · simp [PMMG_compare_coorCell, PMMG_compare_coorCell_loop, PMMG_compare_coorCell_assert,
      heps, not_lt.mpr (le_of_lt heps)]

theorem PMMG_compare_strict_modulo_eps_witness :
    (0 : ℚ) < 1 / 10 ^ 30 ∧
    ((∃ k, (1 / 10 ^ 30 : ℚ) < |cellP.coor k - cellQ.coor k|) →
      ∃ r, PMMG_compare_coorCell (1 / 10 ^ 30 : ℚ) cellP cellQ = some r ∧
        Xor' (r > 0) (r < 0)) ∧
    PMMG_compare_coorCell (1 / 10 ^ 30 : ℚ) cellP cellP = some 0 :=
  ⟨by norm_num, PMMG_compare_strict_modulo_eps (1 / 10 ^ 30 : ℚ) (by norm_num) cellP cellQ⟩

/-- C5 as stated fails: with `eps = 1e-30`, the cells `(1.2e-30, 0, 0)`, `(0.6e-30, 2, 0)`
and `(0, 4, 0)` compare as `a < b` and `b < c` (on the second axis, the first coordinates
being within `eps`), while `a` and `c` compare as `a > c` on the first axis. -/
theorem PMMG_compare_not_transitive :
    PMMG_compare_coorCell (1 / 10 ^ 30 : ℚ) cellA cellB = some (-1) ∧
    PMMG_compare_coorCell (1 / 10 ^ 30 : ℚ) cellB cellC = some (-1) ∧
    PMMG_compare_coorCell (1 / 10 ^ 30 : ℚ) cellA cellC = some 1 := by
  refine ⟨?_, ?_, ?_⟩ <;>
    norm_num [PMMG_compare_coorCell, PMMG_compare_coorCell_loop, cellA, cellB, cellC]

/-- C5, amended: `PMMG_compare_coorCell` is transitive on cells whose coordinates are well
separated with respect to `eps`. For a positive `eps` and cells `a`, `b`, `c` such that, on
every axis, being within `eps` of each other is transitive among their three coordinates
(as it is when any two of them are equal or more than `eps` apart): if the comparison of `a`
with `b` and that of `b` with `c` return negative values, so does that of `a` with `c`. -/
theorem PMMG_compare_trans_of_separated {K : Type} [LinearOrderedField K] (eps : K)
    (heps : 0 < eps) (a b c : PMMG_coorCell K)
    (hclose : ∀ k, ∀ x ∈ [a, b, c], ∀ y ∈ [a, b, c], ∀ z ∈ [a, b, c],
      |x.coor k - y.coor k| ≤ eps → |y.coor k - z.coor k| ≤ eps →
        |x.coor k - z.coor k| ≤ eps)
    (hab : ∃ r, PMMG_compare_coorCell eps a b = some r ∧ r < 0)
    (hbc : ∃ r, PMMG_compare_coorCell eps b c = some r ∧ r < 0) :
    ∃ r, PMMG_compare_coorCell eps a c = some r ∧ r < 0 := by
  have ha : a ∈ [a, b, c] := by simp
  have hb : b ∈ [a, b, c] := by simp
  have hc : c ∈ [a, b, c] := by simp
  have T := fun k => PMMG_axis_trans eps (a.coor k) (b.coor k) (c.coor k) heps
    (hclose k a ha b hb c hc) (hclose k a ha c hc b hb) (hclose k b hb a ha c hc)
  obtain ⟨T01, T02, T03, T04⟩ := T 0
  obtain ⟨T11, T12, T13, T14⟩ := T 1
  obtain ⟨T21, T22, T23, T24⟩ := T 2
  rw [PMMG_compare_neg_iff] at hab hbc ⊢
  rcases hab with ⟨p0, q0⟩ | ⟨p0, p0n, p1, q1⟩ | ⟨p0, p0n, p1, p1n, p2, q2⟩ <;>
    rcases hbc with ⟨r0, s0⟩ | ⟨r0, r0n, r1, s1⟩ | ⟨r0, r0n, r1, r1n, r2, s2⟩
  · exact Or.inl (T04 p0 q0 r0 s0)
  · exact Or.inl (T02 p0 q0 r0 r0n)
  · exact Or.inl (T02 p0 q0 r0 r0n)
  · exact Or.inl (T03 p0 p0n r0 s0)
  · obtain ⟨u, v⟩ := T01 p0 p0n r0 r0n
    obtain ⟨w, x⟩ := T14 p1 q1 r1 s1
    exact Or.inr (Or.inl ⟨u, v, w, x⟩)
  · obtain ⟨u, v⟩ := T01 p0 p0n r0 r0n
    obtain ⟨w, x⟩ := T12 p1 q1 r1 r1n
    exact Or.inr (Or.inl ⟨u, v, w, x⟩)
  · exact Or.inl (T03 p0 p0n r0 s0)
  · obtain ⟨u, v⟩ := T01 p0 p0n r0 r0n
    obtain ⟨w, x⟩ := T13 p1 p1n r1 s1
    exact Or.inr (Or.inl ⟨u, v, w, x⟩)
  · obtain ⟨u, v⟩ := T01 p0 p0n r0 r0n
    obtain ⟨w, x⟩ := T11 p1 p1n r1 r1n
    obtain ⟨y, z⟩ := T24 p2 q2 r2 s2
    exact Or.inr (Or.inr ⟨u, v, w, x, y, z⟩)

theorem PMMG_compare_trans_of_separated_witness :
    (∃ r, PMMG_compare_coorCell (1 / 10 ^ 30 : ℚ) cellP cellQ = some r ∧ r < 0) ∧
    (∃ r, PMMG_compare_coorCell (1 / 10 ^ 30 : ℚ) cellQ cellR = some r ∧ r < 0) ∧
    (∃ r, PMMG_compare_coorCell (1 / 10 ^ 30 : ℚ) cellP cellR = some r ∧ r < 0) :=
  have hclose : ∀ k, ∀ x ∈ [cellP, cellQ, cellR], ∀ y ∈ [cellP, cellQ, cellR],
      ∀ z ∈ [cellP, cellQ, cellR],
      |x.coor k - y.coor k| ≤ (1 / 10 ^ 30 : ℚ) → |y.coor k - z.coor k| ≤ 1 / 10 ^ 30 →
        |x.coor k - z.coor k| ≤ 1 / 10 ^ 30 := by
    intro k x hx y hy z hz
    simp only [List.mem_cons, List.mem_singleton, List.not_mem_nil, or_false] at hx hy hz
    rcases hx with rfl | rfl | rfl <;> rcases hy with rfl | rfl | rfl <;>
      rcases hz with rfl | rfl | rfl <;> fin_cases k <;>
      norm_num [cellP, cellQ, cellR]
  have hab : ∃ r, PMMG_compare_coorCell (1 / 10 ^ 30 : ℚ) cellP cellQ = some r ∧ r < 0 :=
    ⟨-1, by norm_num [PMMG_compare_coorCell, PMMG_compare_coorCell_loop, cellP, cellQ],
      by decide⟩
  have hbc : ∃ r, PMMG_compare_coorCell (1 / 10 ^ 30 : ℚ) cellQ cellR = some r ∧ r < 0 :=
    ⟨-1, by norm_num [PMMG_compare_coorCell, PMMG_compare_coorCell_loop, cellQ, cellR],
      by decide⟩
  ⟨hab, hbc, PMMG_compare_trans_of_separated (1 / 10 ^ 30 : ℚ) (by norm_num)
    cellP cellQ cellR hclose hab hbc⟩

/-! ## The reduction operator of the quality histogram -/

/-- A call of `PMMG_min_iel_compute` on one element with a value below `DBL_MAX` writes the
input triple over the in/out buffer, whatever that buffer holds. -/
theorem PMMG_min_iel_compute_single {K : Type} [LinearOrderedField K] (dblMax : K)
    (x c : min_iel_t K) (hx : x.min < dblMax) :
    PMMG_min_iel_compute dblMax [x] [c] 1 = [x] := by
  simp [PMMG_min_iel_compute, PMMG_min_iel_loop, hx]

/-- The fold of `PMMG_min_iel_compute` over triples with values below `DBL_MAX` gives the
triple of the last rank, whatever the values are. -/
theorem PMMG_min_iel_reduce_last {K : Type} [LinearOrderedField K] (dblMax : K)
    (ts : List (min_iel_t K)) (t : min_iel_t K) (h : ∀ x ∈ ts, x.min < dblMax) :
    PMMG_min_iel_reduce dblMax (t :: ts) = some ((t :: ts).getLast (List.cons_ne_nil t ts)) := by
  simp only [PMMG_min_iel_reduce, Option.some.injEq]
  induction ts generalizing t with
  | nil => simp
  | cons y ys ih =>
    rw [List.foldl_cons, PMMG_min_iel_compute_single dblMax y t (h y (List.mem_cons_self _ _)),
      List.headD_cons, ih y (fun x hx => h x (List.mem_cons_of_mem _ hx)),
      List.getLast_cons (List.cons_ne_nil y ys)]

/-- C2, evaluation at the input of the claim: the fold of `PMMG_min_iel_compute` over the
triples of ranks 0, 1 and 2, with values `3.2`, `1.5` and `1.5`, gives the triple of rank 2,
whose element is not that of rank 1; on the values `1.5` then `3.2` it gives the value
`3.2`, which is not the minimum. -/
theorem PMMG_min_iel_reduce_last_wins :
    PMMG_min_iel_reduce (10 ^ 308 : ℚ) [tripleRank0, tripleRank1, tripleRank2]
      = some tripleRank2 ∧
    tripleRank2.iel ≠ tripleRank1.iel ∧
    PMMG_min_iel_reduce (10 ^ 308 : ℚ) [tripleRank1, tripleRank0] = some tripleRank0 := by
  have h0 : tripleRank0.min < (10 ^ 308 : ℚ) := by norm_num [tripleRank0]
  have h1 : tripleRank1.min < (10 ^ 308 : ℚ) := by norm_num [tripleRank1]
  have h2 : tripleRank2.min < (10 ^ 308 : ℚ) := by norm_num [tripleRank2]
  refine ⟨?_, by norm_num [tripleRank1, tripleRank2], ?_⟩
  · simp only [PMMG_min_iel_reduce, List.foldl]
    rw [PMMG_min_iel_compute_single _ _ _ h1]
    simp only [List.headD_cons]
    rw [PMMG_min_iel_compute_single _ _ _ h2]
    simp only [List.headD_cons]
  · simp only [PMMG_min_iel_reduce, List.foldl]
    rw [PMMG_min_iel_compute_single _ _ _ h0]
    simp only [List.headD_cons]

/-- C3, evaluation at a failing input: with the input triple of value `3.2` and the in/out
buffer holding the accumulated triple of value `1.5`, the input value is not below the
accumulated one, and yet the call leaves the input triple in the in/out buffer. -/
theorem PMMG_min_iel_compute_ignores_accumulator :
    ¬ tripleRank0.min < tripleRank1.min ∧
    PMMG_min_iel_compute (10 ^ 308 : ℚ) [tripleRank0] [tripleRank1] 1 = [tripleRank0] ∧
    tripleRank0 ≠ tripleRank1 := by
  refine ⟨by norm_num [tripleRank0, tripleRank1], ?_, ?_⟩
  · exact PMMG_min_iel_compute_single _ _ _ (by norm_num [tripleRank0])
  · intro h
    have := congrArg min_iel_t.iel h
    norm_num [tripleRank0, tripleRank1] at this

/-! ## Setting an integer parameter -/

/-- When the kernel setter succeeds on every group from index `pre.length` on, the loop of
`PMMG_Set_iparameter` runs to its end and every one of these groups holds what the kernel
setter has left. -/
theorem PMMG_Set_iparameter_loop_ok {M S : Type} (kernel : MMG3D_Setter M S)
    (withMet : Bool) (ip : MMG3D_IPARAM) (val : Int) (post pre : List (PMMG_Grp M S))
    (hok : ∀ g ∈ post, (kernel g.mesh (if withMet then some g.met else none) ip val).1 ≠ 0) :
    PMMG_Set_iparameter_loop kernel withMet ip val post.length pre.length (pre ++ post) =
      some (true, pre ++ post.map fun g =>
        { g with
          mesh := (kernel g.mesh (if withMet then some g.met else none) ip val).2.1
          met := if withMet then
              (kernel g.mesh (if withMet then some g.met else none) ip val).2.2.getD g.met
            else g.met }) := by
  induction post generalizing pre with
  | nil => simp [PMMG_Set_iparameter_loop]
  | cons g gs ih =>
    have h1 : (pre ++ g :: gs)[pre.length]? = some g := by
      rw [List.getElem?_append_right (le_refl _)]
      simp
    have hg := hok g (List.mem_cons_self _ _)
    simp only [List.length_cons, PMMG_Set_iparameter_loop, h1, if_neg hg]
    have h2 : ∀ g1 : PMMG_Grp M S, (pre ++ g :: gs).set pre.length g1 = (pre ++ [g1]) ++ gs := by
      intro g1
      simp [List.set_append]
    rw [h2]
    have h3 := fun g1 : PMMG_Grp M S =>
      ih (pre ++ [g1]) (fun x hx => hok x (List.mem_cons_of_mem _ hx))
    simp only [List.length_append, List.length_singleton] at h3
    rw [h3]
    simp

/-- A case of `PMMG_Set_iparameter` made of the loop and `break` returns `1` when `ngrp` is
the number of groups of `listgrp` and the kernel setter succeeds on every group; the mesh of
every group is then the one the kernel setter has left. -/
theorem PMMG_Set_iparameter_case_ok {M S : Type} (kernel : MMG3D_Setter M S)
    (parmesh : PMMG_ParMesh M S) (ip : MMG3D_IPARAM) (val : Int)
    (hlen : parmesh.ngrp = parmesh.listgrp.length)
    (hok : ∀ g ∈ parmesh.listgrp, (kernel g.mesh none ip val).1 ≠ 0) :
    PMMG_Set_iparameter_case kernel parmesh ip val =
      some (1, { parmesh with
        listgrp := parmesh.listgrp.map fun g =>
          { g with mesh := (kernel g.mesh none ip val).2.1 } }) := by
  have hn : parmesh.ngrp.toNat = parmesh.listgrp.length := by
    rw [hlen]
    exact Int.toNat_natCast _
  have h := PMMG_Set_iparameter_loop_ok kernel false ip val parmesh.listgrp []
    (by simpa using hok)
  simp only [List.length_nil, List.nil_append] at h
  simp only [PMMG_Set_iparameter_case, hn, h]
  simp

/-- C8, evaluation at a failing input: on a parmesh with one group and a kernel setter that
succeeds, `PMMG_Set_iparameter` with the option `PMMG_IPARAM_anisosize` calls the kernel
setter on the group, which records the option, and then returns `0`. -/
theorem PMMG_Set_iparameter_anisosize_returns_zero :
    (recordingSetter [] (some ()) .anisosize 1).1 = 1 ∧
    PMMG_Set_iparameter recordingSetter parmeshOneGrp .anisosize 1 =
      some (0, { parmeshOneGrp with
        listgrp := [{ mesh := [(MMG3D_IPARAM.anisosize, 1)], met := () }] }) := by
  constructor <;> rfl

/-- C9: memory budget with a positive value. For every `N > 0` and every parmesh whose
`ngrp >= 1` is the number of groups of `listgrp`, when the kernel setter succeeds on every
group with the option `MMG3D_IPARAM_mem` and the value `N / ngrp`, the call
`PMMG_Set_iparameter(parmesh, PMMG_IPARAM_mem, N)` returns `1`, leaves `memMax` equal to `N`
and the mesh of every group is the one left by the kernel setter called with `N / ngrp`. -/
theorem PMMG_Set_iparameter_mem_positive {M S : Type} (kernel : MMG3D_Setter M S)
    (parmesh : PMMG_ParMesh M S) (N : Int) (hN : 0 < N) (hgrp : 1 ≤ parmesh.ngrp)
    (hlen : parmesh.ngrp = parmesh.listgrp.length)
    (hok : ∀ g ∈ parmesh.listgrp,
      (kernel g.mesh none MMG3D_IPARAM.mem (N / parmesh.ngrp)).1 ≠ 0) :
    PMMG_Set_iparameter kernel parmesh .mem N =
      some (1, { parmesh with
        memMax := N
        listgrp := parmesh.listgrp.map fun g =>
          { g with mesh := (kernel g.mesh none MMG3D_IPARAM.mem (N / parmesh.ngrp)).2.1 } }) := by
  have hdiv : Int.tdiv N parmesh.ngrp = N / parmesh.ngrp :=
    Int.tdiv_eq_ediv (le_of_lt hN) (by omega)
  have hne : parmesh.ngrp ≠ 0 := by omega
  simp only [PMMG_Set_iparameter, if_neg (not_le.mpr hN), if_neg hne, hdiv]
  exact PMMG_Set_iparameter_case_ok kernel { parmesh with memMax := N } .mem
    (N / parmesh.ngrp) hlen hok

theorem PMMG_Set_iparameter_mem_positive_witness :
    PMMG_Set_iparameter recordingSetter parmeshTwoGrp .mem 7 =
      some (1, { parmeshTwoGrp with
        memMax := 7
        listgrp := parmeshTwoGrp.listgrp.map fun g =>
          { g with mesh := (recordingSetter g.mesh none MMG3D_IPARAM.mem
              (7 / parmeshTwoGrp.ngrp)).2.1 } }) :=
  PMMG_Set_iparameter_mem_positive recordingSetter parmeshTwoGrp 7 (by decide) (by decide)
    (by decide) (by intro g _; simp [recordingSetter])

/-- C10, evaluation at a failing input: on a parmesh with one group whose `memMax` is the
default 4 MiB, the call `PMMG_Set_iparameter(parmesh, PMMG_IPARAM_mem, 0)` returns `1` and
leaves `memMax` at the default, but the kernel setter of the group receives the value
`0 / 1 = 0` and not the default budget; with the value `-7` on two groups each kernel
setter receives `-7 / 2 = -3`. -/
theorem PMMG_Set_iparameter_mem_nonpositive_passes_val :
    PMMG_Set_iparameter recordingSetter parmeshOneGrp .mem 0 =
      some (1, { parmeshOneGrp with
        listgrp := [{ mesh := [(MMG3D_IPARAM.mem, 0)], met := () }] }) ∧
    (0 : Int) ≠ Int.tdiv PMMG_memMax_default 1 ∧
    PMMG_Set_iparameter recordingSetter parmeshTwoGrp .mem (-7) =
      some (1, { parmeshTwoGrp with
        listgrp := [{ mesh := [(MMG3D_IPARAM.mem, -3)], met := () },
                    { mesh := [(MMG3D_IPARAM.mem, -3)], met := () }] }) := by
  refine ⟨rfl, by decide, rfl⟩

/-! ## Release of the communicators -/

/-- The release of one array of a communicator that satisfies the asserted invariant
succeeds and leaves the array unset. -/
theorem PMMG_comm_free_array_ok {α : Type} (memCur nitem sizeofType : Int) (ptr : Option α)
    (h : ptr.isSome → nitem ≠ 0) :
    PMMG_comm_free_array memCur nitem sizeofType ptr =
      some (if ptr.isSome then memCur - nitem * sizeofType else memCur, none) := by
  cases ptr with
  | none => simp [PMMG_comm_free_array]
  | some a =>
    have hn : nitem ≠ 0 := h rfl
    simp [PMMG_comm_free_array, PMMG_DEL_MEM, hn]

/-- One pass of the loop of `PMMG_parmesh_ext_comm_free` on a communicator that satisfies
the asserted invariant leaves its five arrays unset and does not write `nitem`. -/
theorem PMMG_parmesh_ext_comm_free_body_ok {K : Type} (sizeofInt memCur : Int)
    (e : PMMG_ext_comm K)
    (he : (e.int_comm_index.isSome ∨ e.itosend.isSome ∨ e.itorecv.isSome ∨
      e.rtosend.isSome ∨ e.rtorecv.isSome) → e.nitem ≠ 0) :
    ∃ m, PMMG_parmesh_ext_comm_free_body sizeofInt memCur e =
      some (m, PMMG_ext_comm_unset e) := by
  simp only [PMMG_parmesh_ext_comm_free_body]
  rw [PMMG_comm_free_array_ok _ _ _ _ (fun h => he (Or.inl h))]
  simp only [Option.some_bind]
  rw [PMMG_comm_free_array_ok _ _ _ _ (fun h => he (Or.inr (Or.inl h)))]
  simp only [Option.some_bind]
  rw [PMMG_comm_free_array_ok _ _ _ _ (fun h => he (Or.inr (Or.inr (Or.inl h))))]
  simp only [Option.some_bind]
  rw [PMMG_comm_free_array_ok _ _ _ _ (fun h => he (Or.inr (Or.inr (Or.inr (Or.inl h)))))]
  simp only [Option.some_bind]
  rw [PMMG_comm_free_array_ok _ _ _ _ (fun h => he (Or.inr (Or.inr (Or.inr (Or.inr h)))))]
  simp only [Option.some_bind]
  exact ⟨_, rfl⟩

/-- One pass of the loop of `PMMG_parmesh_ext_comm_free` on a communicator whose arrays are
all unset changes nothing. -/
theorem PMMG_parmesh_ext_comm_free_body_unset {K : Type} (sizeofInt memCur : Int)
    (e : PMMG_ext_comm K) :
    PMMG_parmesh_ext_comm_free_body sizeofInt memCur (PMMG_ext_comm_unset e) =
      some (memCur, PMMG_ext_comm_unset e) := by
  simp [PMMG_parmesh_ext_comm_free_body, PMMG_comm_free_array, PMMG_ext_comm_unset]

/-- The function `PMMG_parmesh_int_comm_free` on a communicator that satisfies the asserted
invariant leaves its two arrays unset and does not write `nitem`. -/
theorem PMMG_parmesh_int_comm_free_ok {K : Type} (sizeofInt sizeofDouble memCur : Int)
    (c : PMMG_int_comm K)
    (hc : (c.intvalues.isSome ∨ c.doublevalues.isSome) → c.nitem ≠ 0) :
    ∃ m, PMMG_parmesh_int_comm_free sizeofInt sizeofDouble memCur (some c) =
      some (m, some (PMMG_int_comm_unset c)) := by
  simp only [PMMG_parmesh_int_comm_free]
  rw [PMMG_comm_free_array_ok _ _ _ _ (fun h => hc (Or.inl h))]
  simp only [Option.some_bind]
  rw [PMMG_comm_free_array_ok _ _ _ _ (fun h => hc (Or.inr h))]
  simp only [Option.some_bind]
  exact ⟨_, rfl⟩

/-- C11 as stated fails: the internal communicator of three items with an allocated integer
array still has `nitem = 3` after `PMMG_parmesh_int_comm_free` (with `sizeof(int) = 4` and
a ledger of 100 bytes), and so has the external communicator of two items after
`PMMG_parmesh_ext_comm_free` with `ncomm = 1`. -/
theorem PMMG_comm_free_keeps_nitem :
    PMMG_parmesh_int_comm_free 4 8 100 (some intCommAllocated) =
      some (88, some { nitem := 3, intvalues := none, doublevalues := none }) ∧
    PMMG_parmesh_ext_comm_free 4 100 (some [extCommFirst]) 1 =
      some (76, some [{ nitem := 2, int_comm_index := none, itosend := none, itorecv := none,
                        rtosend := none, rtorecv := none }]) := by
  constructor <;> rfl

/-- C11, amended: freeing a communicator unsets its arrays and leaves `nitem` as it was.
For every internal communicator `c` and every external communicator `e` (passed with
`ncomm = 1`) in which an allocated array implies `nitem != 0`, the invariant that the
functions assert: after the call every array field is unset and every other field,
`nitem` included, has the value it had; and a second call on the resulting state changes
nothing, neither the communicator nor the ledger. -/
theorem PMMG_comm_free_unsets_arrays {K : Type} (sizeofInt sizeofDouble memCur : Int)
    (c : PMMG_int_comm K) (e : PMMG_ext_comm K)
    (hc : (c.intvalues.isSome ∨ c.doublevalues.isSome) → c.nitem ≠ 0)
    (he : (e.int_comm_index.isSome ∨ e.itosend.isSome ∨ e.itorecv.isSome ∨
      e.rtosend.isSome ∨ e.rtorecv.isSome) → e.nitem ≠ 0) :
    (∃ m, PMMG_parmesh_int_comm_free sizeofInt sizeofDouble memCur (some c) =
        some (m, some (PMMG_int_comm_unset c)) ∧
      PMMG_parmesh_int_comm_free sizeofInt sizeofDouble m
          (some (PMMG_int_comm_unset c)) =
        some (m, some (PMMG_int_comm_unset c))) ∧
    (∃ m, PMMG_parmesh_ext_comm_free sizeofInt memCur (some [e]) 1 =
        some (m, some [PMMG_ext_comm_unset e]) ∧
      PMMG_parmesh_ext_comm_free sizeofInt m
          (some [PMMG_ext_comm_unset e]) 1 =
        some (m, some [PMMG_ext_comm_unset e])) := by
  constructor
  · obtain ⟨m, hm⟩ := PMMG_parmesh_int_comm_free_ok sizeofInt sizeofDouble memCur c hc
    refine ⟨m, hm, ?_⟩
    simp [PMMG_parmesh_int_comm_free, PMMG_comm_free_array, PMMG_int_comm_unset]
  · obtain ⟨m, hm⟩ := PMMG_parmesh_ext_comm_free_body_ok sizeofInt memCur e he
    refine ⟨m, ?_, ?_⟩
    · simp [PMMG_parmesh_ext_comm_free, PMMG_parmesh_ext_comm_free_loop, hm]
    · have h2 := PMMG_parmesh_ext_comm_free_body_unset sizeofInt m e
      simp only [PMMG_parmesh_ext_comm_free, Int.toNat_one, PMMG_parmesh_ext_comm_free_loop,
        h2, Option.some_bind, Option.map_some']

theorem PMMG_comm_free_unsets_arrays_witness :
    (∃ m, PMMG_parmesh_int_comm_free 4 8 100 (some intCommAllocated) =
        some (m, some (PMMG_int_comm_unset intCommAllocated)) ∧
      PMMG_parmesh_int_comm_free 4 8 m
          (some (PMMG_int_comm_unset intCommAllocated)) =
        some (m, some (PMMG_int_comm_unset intCommAllocated))) ∧
    (∃ m, PMMG_parmesh_ext_comm_free 4 100 (some [extCommFirst]) 1 =
        some (m, some [PMMG_ext_comm_unset extCommFirst]) ∧
      PMMG_parmesh_ext_comm_free 4 m
          (some [PMMG_ext_comm_unset extCommFirst]) 1 =
        some (m, some [PMMG_ext_comm_unset extCommFirst])) :=
  PMMG_comm_free_unsets_arrays 4 8 100 intCommAllocated extCommFirst
    (by intro _; decide) (by intro _; decide)

/-- C14, evaluation at a failing input: on an array of two external communicators with
allocated arrays, `PMMG_parmesh_ext_comm_free` with `ncomm = 2` (with `sizeof(int) = 4` and
a ledger of 100 bytes) releases the arrays of the first communicator only; the second one
keeps its five arrays allocated. -/
theorem PMMG_parmesh_ext_comm_free_first_only :
    PMMG_parmesh_ext_comm_free 4 100 (some [extCommFirst, extCommSecond]) 2 =
      some (76, some [{ nitem := 2, int_comm_index := none, itosend := none, itorecv := none,
                        rtosend := none, rtorecv := none }, extCommSecond]) ∧
    extCommSecond.int_comm_index.isSome ∧ extCommSecond.itosend.isSome ∧
    extCommSecond.itorecv.isSome ∧ extCommSecond.rtosend.isSome ∧
    extCommSecond.rtorecv.isSome := by
  refine ⟨rfl, rfl, rfl, rfl, rfl, rfl⟩

/-! ## The assertion of the comparison -/

/-- C16: the consistency assertion of `PMMG_compare_coorCell` never fails. For all cells `a`
and `b` and every `eps` with `0 < eps < 1/3`, when no axis difference exceeds `eps` in
absolute value, the loop runs to its end, the squared distance
`dist[0]^2 + dist[1]^2 + dist[2]^2` is strictly smaller than `eps`, and the function
returns `0`: the assertion holds. -/
theorem PMMG_compare_assert_never_fails {K : Type} [LinearOrderedField K] (eps : K)
    (h0 : 0 < eps) (h1 : eps < 1 / 3) (a b : PMMG_coorCell K)
    (hfall : ∀ k, |a.coor k - b.coor k| ≤ eps) :
    PMMG_compare_coorCell_loop eps a b [0, 1, 2] = none ∧
    (a.coor 0 - b.coor 0) * (a.coor 0 - b.coor 0)
      + (a.coor 1 - b.coor 1) * (a.coor 1 - b.coor 1)
      + (a.coor 2 - b.coor 2) * (a.coor 2 - b.coor 2) < eps ∧
    PMMG_compare_coorCell eps a b = some 0 := by
  have hk : ∀ k, ¬ a.coor k - b.coor k > eps ∧ ¬ a.coor k - b.coor k < -eps ∧
      (a.coor k - b.coor k) * (a.coor k - b.coor k) ≤ eps * eps := by
    intro k
    obtain ⟨hl, hu⟩ := abs_le.mp (hfall k)
    exact ⟨not_lt.mpr hu, not_lt.mpr hl, by nlinarith⟩
  obtain ⟨p0, q0, s0⟩ := hk 0
  obtain ⟨p1, q1, s1⟩ := hk 1
  obtain ⟨p2, q2, s2⟩ := hk 2
  have hloop : PMMG_compare_coorCell_loop eps a b [0, 1, 2] = none := by
    simp only [PMMG_compare_coorCell_loop, if_neg p0, if_neg q0, if_neg p1, if_neg q1,
      if_neg p2, if_neg q2]
  have hsum : (a.coor 0 - b.coor 0) * (a.coor 0 - b.coor 0)
      + (a.coor 1 - b.coor 1) * (a.coor 1 - b.coor 1)
      + (a.coor 2 - b.coor 2) * (a.coor 2 - b.coor 2) < eps := by
    have h3 : 3 * (eps * eps) < eps := by
      have : eps * (3 * eps) < eps * 1 := mul_lt_mul_of_pos_left (by linarith) h0
      linarith
    linarith
  refine ⟨hloop, hsum, ?_⟩
  simp only [PMMG_compare_coorCell, hloop, PMMG_compare_coorCell_assert, decide_eq_true hsum,
    if_true]

theorem PMMG_compare_assert_never_fails_witness :
    (0 : ℚ) < 1 / 10 ^ 30 ∧ (1 / 10 ^ 30 : ℚ) < 1 / 3 ∧
    (∀ k, |cellA.coor k - cellNearA.coor k| ≤ (1 / 10 ^ 30 : ℚ)) ∧
    PMMG_compare_coorCell (1 / 10 ^ 30 : ℚ) cellA cellNearA = some 0 :=
  have h0 : (0 : ℚ) < 1 / 10 ^ 30 := by norm_num
  have h1 : (1 / 10 ^ 30 : ℚ) < 1 / 3 := by norm_num
  have h2 : ∀ k, |cellA.coor k - cellNearA.coor k| ≤ (1 / 10 ^ 30 : ℚ) := by
    intro k
    fin_cases k <;> norm_num [cellA, cellNearA, abs_le]
  ⟨h0, h1, h2,
    (PMMG_compare_assert_never_fails (1 / 10 ^ 30 : ℚ) h0 h1 cellA cellNearA h2).2.2⟩

/-! ## The running minimum of `PMMG_min_iel_compute` -/

theorem PMMG_min_iel_run_cons {K : Type} [LinearOrderedField K] (c x : min_iel_t K)
    (xs : List (min_iel_t K)) :
    PMMG_min_iel_run c (x :: xs) = PMMG_min_iel_run (if c.min > x.min then x else c) xs := by
  simp [PMMG_min_iel_run]

/-- Element `i` of the buffer written by the loop of `PMMG_min_iel_compute` is the value of
the local variable `c` after the first `i + 1` elements of the input. -/
theorem PMMG_min_iel_loop_getElem {K : Type} [LinearOrderedField K]
    (ins : List (min_iel_t K)) (c : min_iel_t K) (outs : List (min_iel_t K)) (n i : Nat)
    (hi : i < n) (hin : n ≤ ins.length) (hout : n ≤ outs.length) :
    (PMMG_min_iel_loop c ins outs n)[i]? = some (PMMG_min_iel_run c (ins.take (i + 1))) := by
  induction ins generalizing c outs n i with
  | nil =>
    simp only [List.length_nil, Nat.le_zero_eq] at hin
    omega
  | cons x xs ih =>
    cases outs with
    | nil =>
      simp only [List.length_nil, Nat.le_zero_eq] at hout
      omega
    | cons o os =>
      cases n with
      | zero => omega
      | succ n =>
        simp only [PMMG_min_iel_loop]
        cases i with
        | zero => simp [PMMG_min_iel_run]
        | succ i =>
          simp only [List.getElem?_cons_succ, List.take_succ_cons, PMMG_min_iel_run_cons]
          exact ih _ os n i (by omega) (by simpa using hin) (by simpa using hout)

/-- The value of the local variable `c` of `PMMG_min_iel_compute` after a list of inputs:
either no input is below the initial value and `c` is unchanged, or `c` is the first input
that has the least value. -/
theorem PMMG_min_iel_run_spec {K : Type} [LinearOrderedField K]
    (l : List (min_iel_t K)) (c : min_iel_t K) :
    (PMMG_min_iel_run c l = c ∧ ∀ x ∈ l, c.min ≤ x.min) ∨
    ((PMMG_min_iel_run c l).min < c.min ∧
      ∃ k : Nat, l[k]? = some (PMMG_min_iel_run c l) ∧
        ∀ (m : Nat) (y : min_iel_t K), l[m]? = some y →
          (PMMG_min_iel_run c l).min ≤ y.min ∧ (m < k → (PMMG_min_iel_run c l).min < y.min)) := by
  induction l generalizing c with
  | nil => simp [PMMG_min_iel_run]
  | cons x xs ih =>
    rw [PMMG_min_iel_run_cons]
    by_cases hx : c.min > x.min
    · simp only [if_pos hx]
      rcases ih x with ⟨h1, h2⟩ | ⟨h1, k, h2, h3⟩
      · right
        rw [h1]
        refine ⟨hx, 0, List.getElem?_cons_zero, ?_⟩
        intro m y hy
        cases m with
        | zero =>
          simp only [List.getElem?_cons_zero, Option.some.injEq] at hy
          subst hy
          exact ⟨le_refl _, fun h => absurd h (Nat.lt_irrefl 0)⟩
        | succ m =>
          simp only [List.getElem?_cons_succ] at hy
          exact ⟨h2 y (List.getElem?_mem hy), fun h => absurd h (Nat.not_lt_zero _)⟩
      · right
        refine ⟨lt_trans h1 hx, k + 1, by rw [List.getElem?_cons_succ]; exact h2, ?_⟩
        intro m y hy
        cases m with
        | zero =>
          simp only [List.getElem?_cons_zero, Option.some.injEq] at hy
          subst hy
          exact ⟨le_of_lt h1, fun _ => h1⟩
        | succ m =>
          simp only [List.getElem?_cons_succ] at hy
          exact ⟨(h3 m y hy).1, fun h => (h3 m y hy).2 (by omega)⟩
    · simp only [if_neg hx]
      have hx1 : c.min ≤ x.min := not_lt.mp hx
      rcases ih c with ⟨h1, h2⟩ | ⟨h1, k, h2, h3⟩
      · left
        refine ⟨h1, ?_⟩
        intro y hy
        rcases List.mem_cons.mp hy with rfl | hy
        · exact hx1
        · exact h2 y hy
      · right
        refine ⟨h1, k + 1, by rw [List.getElem?_cons_succ]; exact h2, ?_⟩
        intro m y hy
        cases m with
        | zero =>
          simp only [List.getElem?_cons_zero, Option.some.injEq] at hy
          subst hy
          exact ⟨le_of_lt (lt_of_lt_of_le h1 hx1), fun _ => lt_of_lt_of_le h1 hx1⟩
        | succ m =>
          simp only [List.getElem?_cons_succ] at hy
          exact ⟨(h3 m y hy).1, fun h => (h3 m y hy).2 (by omega)⟩

/-- C15: `PMMG_min_iel_compute` computes a running prefix minimum of its input buffer and
never reads its in/out buffer. For a call with `len = n` on buffers of at least `n`
elements and every `i < n`, the output element `i` is a triple `r` such that: if some value
among `in[0..i]` is below `DBL_MAX`, then `r` is the element `in[k]` of that prefix with the
least value, and the values before index `k` are strictly greater (it is the first one);
if no value of the prefix is below `DBL_MAX`, then `r` is `(DBL_MAX, 0, 0)`; and a call with
the same input buffer and any other in/out buffer gives the same output element. -/
theorem PMMG_min_iel_compute_prefix_min {K : Type} [LinearOrderedField K] (dblMax : K)
    (in1 out1 : List (min_iel_t K)) (n i : Nat) (hi : i < n) (hin : n ≤ in1.length)
    (hout : n ≤ out1.length) :
    ∃ r, (PMMG_min_iel_compute dblMax in1 out1 n)[i]? = some r ∧
      ((∃ (m : Nat) (y : min_iel_t K), m ≤ i ∧ in1[m]? = some y ∧ y.min < dblMax) →
        ∃ k : Nat, k ≤ i ∧ in1[k]? = some r ∧
          ∀ (m : Nat) (y : min_iel_t K), m ≤ i → in1[m]? = some y →
            r.min ≤ y.min ∧ (m < k → r.min < y.min)) ∧
      ((∀ (m : Nat) (y : min_iel_t K), m ≤ i → in1[m]? = some y → dblMax ≤ y.min) →
        r = { min := dblMax, iel := 0, iel_grp := 0 }) ∧
      (∀ out2 : List (min_iel_t K), n ≤ out2.length →
        (PMMG_min_iel_compute dblMax in1 out2 n)[i]? = some r) := by
  have htake : ∀ (m : Nat) (y : min_iel_t K),
      (in1.take (i + 1))[m]? = some y ↔ m ≤ i ∧ in1[m]? = some y := by
    intro m y
    rw [List.getElem?_take]
    by_cases hm : m < i + 1
    · simp only [if_pos hm]
      exact ⟨fun h => ⟨by omega, h⟩, fun h => h.2⟩
    · simp only [if_neg hm]
      exact ⟨fun h => by simp at h, fun h => by omega⟩
  refine ⟨PMMG_min_iel_run { min := dblMax, iel := 0, iel_grp := 0 } (in1.take (i + 1)),
    PMMG_min_iel_loop_getElem in1 _ out1 n i hi hin hout, ?_, ?_,
    fun out2 hout2 => PMMG_min_iel_loop_getElem in1 _ out2 n i hi hin hout2⟩
  · rintro ⟨m, y, hm, hy, hlt⟩
    rcases PMMG_min_iel_run_spec (in1.take (i + 1)) { min := dblMax, iel := 0, iel_grp := 0 }
      with ⟨_, h2⟩ | ⟨_, k, h2, h3⟩
    · have := h2 y (List.getElem?_mem ((htake m y).mpr ⟨hm, hy⟩))
      exact absurd hlt (not_lt.mpr this)
    · obtain ⟨hk, hk2⟩ := (htake k _).mp h2
      exact ⟨k, hk, hk2, fun m y hm hy => h3 m y ((htake m y).mpr ⟨hm, hy⟩)⟩
  · intro hall
    rcases PMMG_min_iel_run_spec (in1.take (i + 1)) { min := dblMax, iel := 0, iel_grp := 0 }
      with ⟨h1, _⟩ | ⟨h1, k, h2, _⟩
    · exact h1
    · obtain ⟨hk, hk2⟩ := (htake k _).mp h2
      exact absurd h1 (not_lt.mpr (hall k _ hk hk2))

theorem PMMG_min_iel_compute_prefix_min_witness :
    2 < 4 ∧ 4 ≤ inBuffer.length ∧
    ∃ r, (PMMG_min_iel_compute (10 ^ 308 : ℚ) inBuffer inBuffer 4)[2]? = some r ∧
      (∀ out2 : List (min_iel_t ℚ), 4 ≤ out2.length →
        (PMMG_min_iel_compute (10 ^ 308 : ℚ) inBuffer out2 4)[2]? = some r) :=
  have h1 : 2 < 4 := by decide
  have h2 : 4 ≤ inBuffer.length := by decide
  let ⟨r, h3, _, _, h4⟩ :=
    PMMG_min_iel_compute_prefix_min (10 ^ 308 : ℚ) inBuffer inBuffer 4 2 h1 h2 h2
  ⟨h1, h2, r, h3, h4⟩

/-! ## The merge of the quality histograms -/

/-- The loop of `PMMG_outqua` over the groups adds to each bucket of the histogram, and to
the number of elements, the contributions of the groups it visits. -/
theorem PMMG_outqua_loop_sums {K : Type} [LinearOrderedField K]
    (grps : List (MMG3D_outqua K)) (i : Nat) (v : PMMG_outqua_local K) :
    (∀ j, (PMMG_outqua_loop i grps v).his j = v.his j + (grps.map fun g => g.his j).sum) ∧
    (PMMG_outqua_loop i grps v).ne = v.ne + (grps.map fun g => g.ne).sum := by
  induction grps generalizing i v with
  | nil => simp [PMMG_outqua_loop]
  | cons g gs ih =>
    simp only [PMMG_outqua_loop, List.map_cons, List.sum_cons]
    obtain ⟨h1, h2⟩ := ih (i + 1)
      { ne := v.ne + g.ne
        avg := v.avg + g.avg
        med := v.med + g.med
        good := v.good + g.good
        max := if g.max > v.max then g.max else v.max
        min := if g.min < v.min then g.min else v.min
        iel := if g.min < v.min then g.iel else v.iel
        iel_grp := if g.min < v.min then i else v.iel_grp
        his := fun j => v.his j + g.his j
        nrid := v.nrid + g.nrid }
    refine ⟨fun j => ?_, ?_⟩
    · rw [h1 j]
      ring
    · rw [h2]
      ring

/-- C13: the merge of the quality histograms. For every list of processes, each with any
number of groups, every bucket of the histogram that the reductions of `PMMG_outqua` leave
on the root is the sum, over all the processes and all their groups, of that bucket of the
histograms of the groups, and the merged number of elements is the sum of the numbers of
elements of the groups. -/
theorem PMMG_outqua_histogram_merge {K : Type} [LinearOrderedField K] (dblMin dblMax : K)
    (procs : List (List (MMG3D_outqua K))) :
    (∀ j, (PMMG_outqua_reduce dblMin dblMax procs).his_result j =
      (procs.map fun grps => (grps.map fun g => g.his j).sum).sum) ∧
    (PMMG_outqua_reduce dblMin dblMax procs).ne_result =
      (procs.map fun grps => (grps.map fun g => g.ne).sum).sum := by
  have hp : ∀ grps : List (MMG3D_outqua K),
      (∀ j, (PMMG_outqua_process dblMin dblMax grps).his j = (grps.map fun g => g.his j).sum) ∧
      (PMMG_outqua_process dblMin dblMax grps).ne = (grps.map fun g => g.ne).sum := by
    intro grps
    obtain ⟨h1, h2⟩ := PMMG_outqua_loop_sums grps 0
      { iel_grp := 0, ne := 0, max := dblMin, avg := 0, min := dblMax, iel := 0, good := 0,
        med := 0, his := fun _ => 0, nrid := 0 }
    refine ⟨fun j => ?_, ?_⟩
    · simp only [PMMG_outqua_process]
      rw [h1 j]
      simp
    · simp only [PMMG_outqua_process]
      rw [h2]
      simp
  refine ⟨fun j => ?_, ?_⟩
  · simp only [PMMG_outqua_reduce]
    congr 1
    exact List.map_congr_left fun grps _ => (hp grps).1 j
  · simp only [PMMG_outqua_reduce]
    congr 1
    exact List.map_congr_left fun grps _ => (hp grps).2

/-- The input of C13: two processes of one group each, with the histograms `[2,1,0,0,1]`
and `[0,1,1,0,0]`, merge to `[2,2,1,0,1]`, and the four and two elements to six. -/
theorem PMMG_outqua_histogram_merge_witness :
    (PMMG_outqua_reduce (1 / 10 ^ 307 : ℚ) (10 ^ 308) [[quaFirst], [quaSecond]]).his_result =
      ![2, 2, 1, 0, 1] ∧
    (PMMG_outqua_reduce (1 / 10 ^ 307 : ℚ) (10 ^ 308) [[quaFirst], [quaSecond]]).ne_result
      = 6 := by
  obtain ⟨h1, h2⟩ :=
    PMMG_outqua_histogram_merge (1 / 10 ^ 307 : ℚ) (10 ^ 308) [[quaFirst], [quaSecond]]
  constructor
  · funext j
    rw [h1 j]
    fin_cases j <;> simp [quaFirst, quaSecond]
  · rw [h2]
    simp [quaFirst, quaSecond]

/-! ## The initialisation of a parmesh -/

/-- C12, evaluation at the failing inputs: on the list `PMMG_ARG_ppParMesh, &parmesh,
PMMG_ARG_dim, 3, PMMG_ARG_end` with a `NULL` parmesh and a successful `calloc`,
`PMMG_Init_parMesh_var` returns `1` and leaves the parmesh pointer `NULL` when the
allocation of the group container fails, and also when `MMG3D_Init_mesh` fails. -/
theorem PMMG_Init_parMesh_var_failure_returns_one {M S : Type} (mpiCommWorld : Nat)
    (sizeofParMesh sizeofGrp : Int)
    (initParameters :
      PMMG_ParMesh (Option M) (Option S) → Nat → PMMG_ParMesh (Option M) (Option S)) :
    (∀ initMesh : Option (M × S),
      PMMG_Init_parMesh_var mpiCommWorld sizeofParMesh sizeofGrp initParameters true false
        initMesh [.ppParMesh, .dim 3] none = some (1, none)) ∧
    (∀ grpOk : Bool,
      PMMG_Init_parMesh_var mpiCommWorld sizeofParMesh sizeofGrp initParameters true grpOk
        (none : Option (M × S)) [.ppParMesh, .dim 3] none = some (1, none)) := by
  constructor
  · intro initMesh
    simp [PMMG_Init_parMesh_var, PMMG_Init_parMesh_var_loop, PMMG_CALLOC]
  · intro grpOk
    simp only [PMMG_Init_parMesh_var, PMMG_Init_parMesh_var_loop]
    cases PMMG_CALLOC sizeofParMesh (4 * 1024 * 1024) 1 sizeofGrp grpOk <;> simp

end ParMmg
